import Mathlib

/-
Verification of the leaflet scraping pipeline (scrape.py).

Shallow embedding conventions:
* Python strings are modelled as `List Char` (and `String` where the source
  keeps whole-string values such as titles and units).
* Python floats are modelled as `ℚ`; `round(x, n)` is modelled by `pyRound`,
  a half-even (banker's) rounding on exact rationals.
* The two regular expressions `_price_re` and `_pack_re` are embedded as
  explicit backtracking-free matchers (`priceAtStart`, `packAtStart`) together
  with a leftmost-position scan (`goPrice`, `goPack`); the embedding follows
  the regex semantics position by position.
* `main()` is modelled as a pure state-transition function `mainRun` over a
  `WorldIn` record that fixes the outcome of each external call (queue query,
  link discovery, per-document download/parse, offer insertion); HTTP
  transport and the PDF byte decoding are outside the core per the spec.
-/

/-! ### Character classes (regex `\d`, `\s`, `\w`; ASCII fragment) -/

def isWsChar (c : Char) : Bool :=
  c = ' ' || c = '\t' || c = '\n' || c = '\r' || c = '\x0b' || c = '\x0c'

def isSepDot (c : Char) : Bool :=
  c = '.' || c = ','

def isWordChar (c : Char) : Bool :=
  c.isAlphanum || c = '_'

/-- The character set of Python `str.strip(" -–•|")` used on titles. -/
def isTitleTrim (c : Char) : Bool :=
  c = ' ' || c = '-' || c = '–' || c = '•' || c = '|'

/-! ### Small string utilities -/

/-- Python `str.strip()` (whitespace from both ends). -/
def pyStrip (l : List Char) : List Char :=
  ((l.dropWhile isWsChar).reverse.dropWhile isWsChar).reverse

/-- Python `str.strip(chars)` for a character predicate. -/
def stripEdges (p : Char → Bool) (l : List Char) : List Char :=
  ((l.dropWhile p).reverse.dropWhile p).reverse

/-- Python `text.split("\n")`. -/
def splitNl : List Char → List (List Char)
  | [] => [[]]
  | c :: rest =>
    if c = '\n' then [] :: splitNl rest
    else
      match splitNl rest with
      | [] => [[c]]
      | g :: gs => (c :: g) :: gs

/-- Python `s.replace(",", ".")`. -/
def commaToDot (l : List Char) : List Char :=
  l.map fun c => if c = ',' then '.' else c

/-- Python `str.lower()` (ASCII fragment, which covers the unit tokens). -/
def lowerStr (s : String) : String :=
  ⟨s.data.map Char.toLower⟩

/-- Worker for `collapseWs` with explicit fuel (fuel `l.length` is always
sufficient since every step consumes at least one character). -/
def goCollapse : ℕ → List Char → List Char
  | 0, l => l
  | _ + 1, [] => []
  | _ + 1, [c] => [c]
  | fuel + 1, c :: d :: rest =>
    if isWsChar c && isWsChar d then ' ' :: goCollapse fuel (rest.dropWhile isWsChar)
    else c :: goCollapse fuel (d :: rest)

/-- Python `re.sub(r"\s{2,}", " ", t)`: every run of two or more whitespace
characters becomes a single space; lone whitespace characters are kept. -/
def collapseWs (l : List Char) : List Char :=
  goCollapse l.length l

/-! ### Decimal numerals -/

def natOfDigits (l : List Char) : ℕ :=
  l.foldl (fun a c => 10 * a + (c.toNat - 48)) 0

/-- Value of a decimal numeral already normalised to a `'.'` separator
(the model of Python `float()` on the strings the two regexes produce). -/
def parseDec (l : List Char) : ℚ :=
  let ip := l.takeWhile fun c => c ≠ '.'
  let fp := (l.dropWhile fun c => c ≠ '.').drop 1
  (natOfDigits ip : ℚ) + (natOfDigits fp : ℚ) / (10 : ℚ) ^ fp.length

/-- Floor on `ℚ` via flooring integer division. -/
def qfloor (q : ℚ) : ℤ :=
  Int.fdiv q.num q.den

/-- Round-half-even to the nearest integer (Python `round` on exact values). -/
def rndHE (q : ℚ) : ℤ :=
  let f := qfloor q
  let r := q - (f : ℚ)
  if r < 1 / 2 then f
  else if 1 / 2 < r then f + 1
  else if f % 2 = 0 then f else f + 1

/-- Python `round(q, n)`. -/
def pyRound (q : ℚ) (n : ℕ) : ℚ :=
  (rndHE (q * (10 : ℚ) ^ n) : ℚ) / (10 : ℚ) ^ n

/-! ### The price regex `(?<!\d)(\d{1,3}(?:[.,]\d{2}))\s*€` -/

/-- Attempt the body of `_price_re` at the head of `s`; on success return the
captured group and the remainder after the match. -/
def priceAtStart (s : List Char) : Option (List Char × List Char) :=
  let ds := s.takeWhile Char.isDigit
  let r := s.dropWhile Char.isDigit
  if ds.isEmpty || decide (3 < ds.length) then none
  else
    match r with
    | c :: a :: b :: r3 =>
      if isSepDot c && a.isDigit && b.isDigit then
        match r3.dropWhile isWsChar with
        | '€' :: r4 => some (ds ++ [c, a, b], r4)
        | _ => none
      else none
    | _ => none

/-- Negative lookbehind `(?<!\d)`: the previous character, if any, is not a
digit. -/
def prevOk : Option Char → Bool
  | none => true
  | some c => !c.isDigit

/-- Leftmost search of `_price_re` (the `prev` argument carries the character
to the left of the current position, for the lookbehind). -/
def goPrice : Option Char → List Char → Option (List Char)
  | _, [] => none
  | p, c :: rest =>
    if prevOk p then
      match priceAtStart (c :: rest) with
      | some (g, _) => some g
      | none => goPrice (some c) rest
    else goPrice (some c) rest

/-- `_price_re.search(line)` followed by `.group(1).replace(",", ".")`. -/
def findPrice (s : List Char) : Option (List Char) :=
  (goPrice none s).map commaToDot

/-- One step list of `_price_re.sub("", s)` with explicit fuel (the fuel is
always sufficient at `s.length` since every step consumes a character). -/
def goSub : ℕ → Option Char → List Char → List Char
  | 0, _, l => l
  | _ + 1, _, [] => []
  | fuel + 1, p, c :: rest =>
    if prevOk p then
      match priceAtStart (c :: rest) with
      | some (_, r4) => goSub fuel (some '€') r4
      | none => c :: goSub fuel (some c) rest
    else c :: goSub fuel (some c) rest

/-- `_price_re.sub("", s)`: delete every match of the price pattern. -/
def priceSubAll (s : List Char) : List Char :=
  goSub s.length none s

/-! ### The pack regex `(\d+(?:[.,]\d+)?)\s*(kg|g|l|ml|vnt)\b` (IGNORECASE) -/

/-- Case-insensitive literal prefix match, returning the remainder. -/
def ciPrefix : List Char → List Char → Option (List Char)
  | [], s => some s
  | _ :: _, [] => none
  | u :: us, c :: cs => if c.toLower = u then ciPrefix us cs else none

/-- `\b` after a unit: end of input or a non-word character. -/
def boundaryOk : List Char → Bool
  | [] => true
  | x :: _ => !isWordChar x

/-- One alternative of the unit alternation, with the trailing `\b`. -/
def tryUnit (u : List Char) (canon : String) (s : List Char) :
    Option (String × List Char) :=
  match ciPrefix u s with
  | some rest => if boundaryOk rest then some (canon, rest) else none
  | none => none

/-- The alternation `kg|g|l|ml|vnt`, in the source's order. -/
def unitAt (s : List Char) : Option (String × List Char) :=
  match tryUnit ['k', 'g'] "kg" s with
  | some r => some r
  | none =>
    match tryUnit ['g'] "g" s with
    | some r => some r
    | none =>
      match tryUnit ['l'] "l" s with
      | some r => some r
      | none =>
        match tryUnit ['m', 'l'] "ml" s with
        | some r => some r
        | none => tryUnit ['v', 'n', 't'] "vnt" s

/-- The optional fractional part `(?:[.,]\d+)?` of the pack number: returns
the consumed characters (empty when the option does not apply) and the
remainder. -/
def packNum (r : List Char) : List Char × List Char :=
  match r with
  | c :: d :: r3 =>
    if isSepDot c && d.isDigit then
      (c :: (d :: r3).takeWhile Char.isDigit, (d :: r3).dropWhile Char.isDigit)
    else ([], r)
  | _ => ([], r)

/-- Attempt the body of `_pack_re` at the head of `s`; on success return the
captured numeric group, the (lowercased) unit, and the remainder. -/
def packAtStart (s : List Char) : Option (List Char × String × List Char) :=
  if (s.takeWhile Char.isDigit).isEmpty then none
  else
    match unitAt ((packNum (s.dropWhile Char.isDigit)).2.dropWhile isWsChar) with
    | some (u, rest) =>
      some (s.takeWhile Char.isDigit ++ (packNum (s.dropWhile Char.isDigit)).1,
        u, rest)
    | none => none

/-- Leftmost search of `_pack_re`. -/
def goPack : List Char → Option (List Char × String)
  | [] => none
  | c :: rest =>
    match packAtStart (c :: rest) with
    | some (g, u, _) => some (g, u)
    | none => goPack rest

/-! ### `compute_unit_price` -/

/-- Embeds `compute_unit_price` from scrape.py.  The source uses a chain of
independent `if` statements; since the lowercased unit can equal at most one
of the five literals, the chain is equivalent to the nested conditional
below. -/
def compute_unit_price (price pack_value : ℚ) (pack_unit : String) :
    Option ℚ × Option String :=
  let pu := lowerStr pack_unit
  if pu = "g" then
    if 0 < pack_value / 1000 then
      (some (pyRound (price / (pack_value / 1000)) 4), some "EUR/kg")
    else (none, none)
  else if pu = "kg" then
    if 0 < pack_value then
      (some (pyRound (price / pack_value) 4), some "EUR/kg")
    else (none, none)
  else if pu = "ml" then
    if 0 < pack_value / 1000 then
      (some (pyRound (price / (pack_value / 1000)) 4), some "EUR/l")
    else (none, none)
  else if pu = "l" then
    if 0 < pack_value then
      (some (pyRound (price / pack_value) 4), some "EUR/l")
    else (none, none)
  else if pu = "vnt" then
    if 0 < pack_value then
      (some (pyRound (price / pack_value) 4), some "EUR/vnt")
    else (none, none)
  else (none, none)

/-! ### Offers and `parse_pdf_offers` -/

structure Offer where
  week_id : String
  store : String
  title : String
  category : Option String
  price : ℚ
  old_price : Option ℚ
  currency : String
  pack_value : Option ℚ
  pack_unit : Option String
  unit_price : Option ℚ
  unit_price_unit : Option String
  discount_pct : Option ℚ
  valid_from : Option String
  valid_to : Option String
  source_url : String
  source_type : String
deriving DecidableEq, Repr

/-- The local dedup key `(title.lower(), price, pack_value, pack_unit)`
(the price component is the parsed, un-rounded value, as in the source). -/
abbrev DKey := String × ℚ × Option ℚ × Option String

/-- Title derivation for a PDF price line: strip the price tokens, trim the
edge separators (`" -–•|"`), collapse repeated interior whitespace, strip. -/
def titleOf (ln : List Char) : List Char :=
  pyStrip (collapseWs (stripEdges isTitleTrim (priceSubAll ln)))

/-- The per-line body of the extraction loop in `parse_pdf_offers`: price
search, title derivation, pack detection, unit price; returns the candidate
offer together with its dedup key, or `none` when the line is skipped. -/
def lineCandidate (week_id source_url : String) (ln : List Char) :
    Option (Offer × DKey) :=
  match findPrice ln with
  | none => none
  | some pstr =>
    let price := parseDec pstr
    let title := titleOf ln
    if title.length < 3 then none
    else
      let packRes := goPack ln
      let pack_value : Option ℚ := packRes.map fun pr => parseDec (commaToDot pr.1)
      let pack_unit : Option String := packRes.map fun pr => pr.2
      let up : Option ℚ × Option String :=
        match pack_value, pack_unit with
        | some pv, some pu =>
          if pv ≠ 0 ∧ pu ≠ "" then compute_unit_price price pv pu
          else (none, none)
        | _, _ => (none, none)
      let titleS : String := ⟨title⟩
      some
        ({ week_id := week_id
           store := "lidl"
           title := titleS
           category := none
           price := pyRound price 2
           old_price := none
           currency := "EUR"
           pack_value := pack_value
           pack_unit := pack_unit
           unit_price := up.1
           unit_price_unit := up.2
           discount_pct := none
           valid_from := none
           valid_to := none
           source_url := source_url
           source_type := "pdf" },
         (lowerStr titleS, price, pack_value, pack_unit))

/-- The extraction loop of `parse_pdf_offers`, threading the `seen` key set
and emitting offers in extraction order. -/
def parseLinesGo (week_id source_url : String) :
    List (List Char) → List DKey → List Offer
  | [], _ => []
  | ln :: rest, seen =>
    match lineCandidate week_id source_url ln with
    | none => parseLinesGo week_id source_url rest seen
    | some (o, k) =>
      if k ∈ seen then parseLinesGo week_id source_url rest seen
      else o :: parseLinesGo week_id source_url rest (k :: seen)

/-- `[ln.strip() for ln in text.split("\n") if ln.strip()]` for one page. -/
def pageLines (page : String) : List (List Char) :=
  ((splitNl page.data).map pyStrip).filter fun l => !l.isEmpty

/-- All stripped non-empty lines of the document, in page order. -/
def normLines (pages : List String) : List (List Char) :=
  pages.flatMap pageLines

/-- Embeds `parse_pdf_offers` from scrape.py, with the externally supplied
per-page text blobs (`pdfplumber` page extraction) as input. -/
def parse_pdf_offers (pages : List String) (source_url week_id : String) :
    List Offer :=
  parseLinesGo week_id source_url (normLines pages) []

/-- All candidates of an extraction call, in order, before deduplication. -/
def linePairs (week_id source_url : String) (pages : List String) :
    List (Offer × DKey) :=
  (normLines pages).filterMap (lineCandidate week_id source_url)

/-- First-occurrence filter on keyed candidates (the reference shape of the
in-batch deduplicator): keep a candidate exactly when its key is new. -/
def firstOccP : List (Offer × DKey) → List DKey → List (Offer × DKey)
  | [], _ => []
  | p :: rest, seen =>
    if p.2 ∈ seen then firstOccP rest seen
    else p :: firstOccP rest (p.2 :: seen)

/-! ### The job/run lifecycle (`main`) -/

inductive JobStatus where
  | queued
  | running
  | done
  | failed
deriving DecidableEq, Repr

inductive RunStatus where
  | pending
  | ok
  | fail
deriving DecidableEq, Repr

/-- The queued `collector_jobs` row, as read by `get_queued_job`. -/
structure Job where
  id : String
  run_id : String
  week_id : Option String
deriving DecidableEq, Repr

/-- Outcome of handling one PDF link: either the download / PDF parse raises
(with the exception text), or it yields the per-page text blobs. -/
inductive SrcResult where
  | fault (msg : String)
  | pages (ps : List String)
deriving DecidableEq, Repr

instance {ε α : Type} [DecidableEq ε] [DecidableEq α] : DecidableEq (Except ε α) :=
  fun x y =>
    match x, y with
    | Except.error a, Except.error b =>
      if h : a = b then isTrue (congrArg Except.error h)
      else isFalse fun hh => h (Except.error.inj hh)
    | Except.ok a, Except.ok b =>
      if h : a = b then isTrue (congrArg Except.ok h)
      else isFalse fun hh => h (Except.ok.inj hh)
    | Except.error _, Except.ok _ => isFalse fun hh => Except.noConfusion hh
    | Except.ok _, Except.error _ => isFalse fun hh => Except.noConfusion hh

/-- The externally determined outcomes of one invocation of `main`:
the scheduling gate, the queue query, link discovery (paired with each
link's download/parse outcome), and whether the offer upsert raises. -/
structure WorldIn where
  manual : Bool
  inWindow : Bool
  queuedJob : Option Job
  weekNow : String
  startedAt : String
  finishedAt : String
  linksRes : Except String (List (String × SrcResult))
  insertFault : Option String
deriving DecidableEq, Repr

/-- View of the job row after the invocation.  `error = none` means the
field was never written; `some none` means it was explicitly set to null. -/
structure JobRec where
  status : JobStatus
  started_at : Option String
  finished_at : Option String
  error : Option (Option String)
deriving DecidableEq, Repr

/-- View of the run row after the invocation (same `Option (Option _)`
convention for fields an update may explicitly null out). -/
structure RunRec where
  status : RunStatus
  stores_ok : Option ℕ
  offers_count : Option ℕ
  finished_at : Option String
  errors : Option (Option (String × String))
  notes : Option String
deriving DecidableEq, Repr

/-- Full observable outcome of one invocation of `main`.  `jobTrace` and
`runTrace` list the status values written by `update_job` / `update_run`, in
order.  `result` is `Except.error e` exactly when the invocation re-raises. -/
structure MainOut where
  jobRec : Option JobRec
  runRec : Option RunRec
  jobTrace : List JobStatus
  runTrace : List RunStatus
  inserted : Option (List Offer)
  result : Except String Unit
deriving DecidableEq, Repr

/-- `job.get("week_id") or iso_week_id()` (Python `or`: empty string is
falsy). -/
def effWeek (j : Job) (weekNow : String) : String :=
  match j.week_id with
  | some s => if s = "" then weekNow else s
  | none => weekNow

/-- The source-iteration loop of `main`: per-source faults are swallowed and
contribute no offers; successful sources append their extracted offers. -/
def collectOffers (srcs : List (String × SrcResult)) (week_id : String) :
    List Offer :=
  srcs.foldl
    (fun acc s =>
      match s.2 with
      | SrcResult.fault _ => acc
      | SrcResult.pages ps => acc ++ parse_pdf_offers ps s.1 week_id)
    []

/-- Number of sources whose download and parse both succeed. -/
def successCount (srcs : List (String × SrcResult)) : ℕ :=
  (srcs.filter fun s =>
    match s.2 with
    | SrcResult.pages _ => true
    | SrcResult.fault _ => false).length

/-- The failed job row written by the `except` handler
(`update_job(job_id, {"status": "failed", ...})`). -/
def failedJobRec (w : WorldIn) (e : String) : JobRec :=
  { status := JobStatus.failed, started_at := some w.startedAt,
    finished_at := some w.finishedAt, error := some (some e) }

/-- The failed run row written by the `except` handler. -/
def failedRunRec (w : WorldIn) (e : String) : RunRec :=
  { status := RunStatus.fail, stores_ok := none, offers_count := none,
    finished_at := some w.finishedAt, errors := some (some ("worker", e)),
    notes := some "Worker failed in Lidl stage." }

/-- The `except` handler of `main`: `update_run`/`update_job` to the failed
state and re-raise. -/
def failOut (w : WorldIn) (ins : Option (List Offer)) (e : String) : MainOut :=
  { jobRec := some (failedJobRec w e), runRec := some (failedRunRec w e),
    jobTrace := [JobStatus.running, JobStatus.failed],
    runTrace := [RunStatus.fail], inserted := ins, result := Except.error e }

/-- The successful job row (`update_job(job_id, {"status": "done", ...})`). -/
def doneJobRec (w : WorldIn) : JobRec :=
  { status := JobStatus.done, started_at := some w.startedAt,
    finished_at := some w.finishedAt, error := some none }

/-- The successful run row written before the `done` transition. -/
def okRunRec (w : WorldIn) (nLinks nOffers : ℕ) : RunRec :=
  { status := RunStatus.ok, stores_ok := some 1, offers_count := some nOffers,
    finished_at := some w.finishedAt, errors := some none,
    notes := some ("Lidl stage completed. PDFs=" ++ toString nLinks ++
      " offers=" ++ toString nOffers) }

/-- Embeds `main` from scrape.py as a state-transition function: scheduling
gate, job claim, `queued → running`, link discovery, the per-source loop,
the offer upsert, and the terminal `done`/`failed` transition with its run
summary; any exception after `begin` runs the handler and re-raises. -/
def mainRun (w : WorldIn) : MainOut :=
  if !w.manual && !w.inWindow then
    { jobRec := none, runRec := none, jobTrace := [], runTrace := [],
      inserted := none, result := Except.ok () }
  else
    match w.queuedJob with
    | none =>
      { jobRec := none, runRec := none, jobTrace := [], runTrace := [],
        inserted := none, result := Except.ok () }
    | some job =>
      let week_id := effWeek job w.weekNow
      match w.linksRes with
      | Except.error e => failOut w none e
      | Except.ok srcs =>
        let all_offers := collectOffers srcs week_id
        match (if all_offers.isEmpty then none else w.insertFault) with
        | some e => failOut w (some all_offers) e
        | none =>
          { jobRec := some (doneJobRec w),
            runRec := some (okRunRec w srcs.length all_offers.length),
            jobTrace := [JobStatus.running, JobStatus.done],
            runTrace := [RunStatus.ok], inserted := some all_offers,
            result := Except.ok () }

/-! ### Declarative token shapes (the specification side of the tokenizers) -/

/-- A price token at the start of `m` with captured group `g`: one to three
integer digits, a `'.'` or `','` separator, exactly two fractional digits,
optional whitespace, then the euro sign. -/
def PriceTok (m g : List Char) : Prop :=
  ∃ ds c a b ws r4,
    m = ds ++ c :: a :: b :: (ws ++ '€' :: r4) ∧
    ds ≠ [] ∧ ds.length ≤ 3 ∧ (∀ x ∈ ds, x.isDigit = true) ∧
    (c = '.' ∨ c = ',') ∧ a.isDigit = true ∧ b.isDigit = true ∧
    (∀ x ∈ ws, isWsChar x = true) ∧ g = ds ++ [c, a, b]

/-- The character immediately to the left of the split point `pre`/`mid`
(`p` stands for the character to the left of the whole scanned list). -/
def prevCharAt (p : Option Char) (pre : List Char) : Option Char :=
  match pre.getLast? with
  | some c => some c
  | none => p

/-- The lookbehind condition at a split point. -/
def POk (p : Option Char) (pre : List Char) : Prop :=
  prevOk (prevCharAt p pre) = true

/-- `g` is the group of the leftmost price token of `s` that is not preceded
by a digit, when the character left of `s` is `p`. -/
def FirstPriceFrom (p : Option Char) (s g : List Char) : Prop :=
  ∃ pre mid, s = pre ++ mid ∧ POk p pre ∧ PriceTok mid g ∧
    ∀ pre' mid' g', s = pre' ++ mid' → pre'.length < pre.length →
      POk p pre' → ¬ PriceTok mid' g'

/-- `g` is the group of the first price token of the line `s`. -/
def FirstPrice (s g : List Char) : Prop :=
  FirstPriceFrom none s g

/-- Optional fractional part of the pack number: empty, or a separator
followed by at least one digit. -/
def OptFrac (t : List Char) : Prop :=
  t = [] ∨ ∃ c fs, t = c :: fs ∧ (c = '.' ∨ c = ',') ∧ fs ≠ [] ∧
    ∀ x ∈ fs, x.isDigit = true

/-- `us` spells the unit `u` case-insensitively, with `u` one of the five
canonical lowercase units. -/
def UnitTokOf (us : List Char) (u : String) : Prop :=
  us.map Char.toLower = u.data ∧
  u ∈ (["kg", "g", "l", "ml", "vnt"] : List String)

/-- A pack token at the start of `m`: digits, an optional fractional part,
optional whitespace, a unit ending at a word boundary; `g` is the numeric
group. -/
def PackTok (m g : List Char) (u : String) : Prop :=
  ∃ ds t ws us r,
    m = ds ++ t ++ ws ++ us ++ r ∧
    ds ≠ [] ∧ (∀ x ∈ ds, x.isDigit = true) ∧ OptFrac t ∧
    (∀ x ∈ ws, isWsChar x = true) ∧ UnitTokOf us u ∧
    (r = [] ∨ ∃ x r', r = x :: r' ∧ isWordChar x = false) ∧
    g = ds ++ t

/-- `(g, u)` is the leftmost pack token of `s`. -/
def FirstPack (s g : List Char) (u : String) : Prop :=
  ∃ pre mid, s = pre ++ mid ∧ PackTok mid g u ∧
    ∀ pre' mid' g' u', s = pre' ++ mid' → pre'.length < pre.length →
      ¬ PackTok mid' g' u'

/-- The pack token exactly as claim C4 words it: "number (with optional `.`
or `,` decimal part) + whitespace + unit token" — mandatory whitespace
between number and unit, and no trailing-boundary requirement. -/
def PackTokClaim (m g : List Char) (u : String) : Prop :=
  ∃ ds t ws us r,
    m = ds ++ t ++ ws ++ us ++ r ∧
    ds ≠ [] ∧ (∀ x ∈ ds, x.isDigit = true) ∧ OptFrac t ∧
    ws ≠ [] ∧ (∀ x ∈ ws, isWsChar x = true) ∧ UnitTokOf us u ∧
    g = ds ++ t

/-- Leftmost claim-shaped pack token. -/
def FirstPackClaim (s g : List Char) (u : String) : Prop :=
  ∃ pre mid, s = pre ++ mid ∧ PackTokClaim mid g u ∧
    ∀ pre' mid' g' u', s = pre' ++ mid' → pre'.length < pre.length →
      ¬ PackTokClaim mid' g' u'

/-- Claim C4 as stated: the pack tokenizer returns exactly the leftmost
token of the claimed shape (in particular `none` when no such token
exists). -/
def ClaimC4Prop : Prop :=
  ∀ (s g : List Char) (u : String),
    goPack s = some (g, u) ↔ FirstPackClaim s g u

/-- Claim C1 as stated: on every run that reaches the success path,
`stores_ok` equals the number of sources successfully processed. -/
def ClaimC1Prop : Prop :=
  ∀ (w : WorldIn) (srcs : List (String × SrcResult)) (r : RunRec),
    w.linksRes = Except.ok srcs → (mainRun w).runRec = some r →
    r.status = RunStatus.ok → r.stores_ok = some (successCount srcs)

/-! ### Concrete inputs used by witnesses and counterexamples -/

/-- A queued job for week `2024-W05`. -/
def jobA : Job :=
  { id := "job-1", run_id := "run-1", week_id := some "2024-W05" }

/-- A leaflet page whose text yields exactly three valid offers. -/
def docPages : String :=
  "Pienas 1.09 €\nSūris Edam 3.49 €\nDuona 500 g 1.50 €"

/-- End-to-end scenario world: two source documents, the first extracts
three valid offers, the second fails to fetch. -/
def wScenario : WorldIn :=
  { manual := true, inWindow := false, queuedJob := some jobA,
    weekNow := "2024-W06", startedAt := "t0", finishedAt := "t1",
    linksRes := Except.ok
      [("u1", SrcResult.pages [docPages]), ("u2", SrcResult.fault "fetch failed")],
    insertFault := none }

/-- World with two successfully processed (empty) source documents. -/
def wTwoOk : WorldIn :=
  { manual := true, inWindow := false, queuedJob := some jobA,
    weekNow := "2024-W06", startedAt := "t0", finishedAt := "t1",
    linksRes := Except.ok
      [("u1", SrcResult.pages [""]), ("u2", SrcResult.pages [""])],
    insertFault := none }

/-- World where link discovery raises. -/
def wLinksFail : WorldIn :=
  { manual := true, inWindow := false, queuedJob := some jobA,
    weekNow := "2024-W06", startedAt := "t0", finishedAt := "t1",
    linksRes := Except.error "boom", insertFault := none }

/-- The offer extracted from the line `"Duona 500 g 1.50 €"`. -/
def oDuona : Offer :=
  { week_id := "w", store := "lidl", title := "Duona 500 g",
    category := none, price := 3 / 2, old_price := none, currency := "EUR",
    pack_value := some 500, pack_unit := some "g", unit_price := some 3,
    unit_price_unit := some "EUR/kg", discount_pct := none,
    valid_from := none, valid_to := none, source_url := "u",
    source_type := "pdf" }

/-! ### Basic lemmas on spans -/

theorem spanExact (p : Char → Bool) (xs : List Char) (y : Char) (zs : List Char)
    (hxs : ∀ x ∈ xs, p x = true) (hy : p y = false) :
    (xs ++ y :: zs).takeWhile p = xs ∧ (xs ++ y :: zs).dropWhile p = y :: zs := by
  induction xs with
  | nil => simp [List.takeWhile_cons, List.dropWhile_cons, hy]
  | cons a as ih =>
    have ha : p a = true := hxs a (by simp)
    have ih' := ih fun x hx => hxs x (by simp [hx])
    simp [List.takeWhile_cons, List.dropWhile_cons, ha, ih'.1, ih'.2]

theorem mem_takeWhile_pred (p : Char → Bool) (l : List Char) :
    ∀ x ∈ l.takeWhile p, p x = true := by
  induction l with
  | nil => simp
  | cons a as ih =>
    intro x hx
    rw [List.takeWhile_cons] at hx
    by_cases ha : p a
    · simp [ha] at hx
      rcases hx with rfl | hx
      · exact ha
      · exact ih x hx
    · simp [ha] at hx

/-! ### C2: the unit price calculator -/

/-- C2 — `compute_unit_price` follows the spec's conversion table: for the
five recognized units it divides by the stated basis and rounds to four
decimals with the stated label, provided the divisor is positive; it yields
`(none, none)` when the divisor would be `≤ 0` or when the (lowercased) unit
is not one of the five. -/
theorem C2_unit_price (p pv : ℚ) :
    (0 < pv →
      compute_unit_price p pv "g" =
        (some (pyRound (p / (pv / 1000)) 4), some "EUR/kg") ∧
      compute_unit_price p pv "kg" =
        (some (pyRound (p / pv) 4), some "EUR/kg") ∧
      compute_unit_price p pv "ml" =
        (some (pyRound (p / (pv / 1000)) 4), some "EUR/l") ∧
      compute_unit_price p pv "l" =
        (some (pyRound (p / pv) 4), some "EUR/l") ∧
      compute_unit_price p pv "vnt" =
        (some (pyRound (p / pv) 4), some "EUR/vnt")) ∧
    (pv ≤ 0 → ∀ u : String, compute_unit_price p pv u = (none, none)) ∧
    (∀ u : String,
      lowerStr u ∉ (["g", "kg", "ml", "l", "vnt"] : List String) →
      compute_unit_price p pv u = (none, none)) := by
  refine ⟨?_, ?_, ?_⟩
  · intro hpv
    have hdiv : 0 < pv / 1000 := div_pos hpv (by norm_num)
    refine ⟨?_, ?_, ?_, ?_, ?_⟩ <;>
      simp [compute_unit_price, show lowerStr "g" = "g" by decide,
        show lowerStr "kg" = "kg" by decide, show lowerStr "ml" = "ml" by decide,
        show lowerStr "l" = "l" by decide, show lowerStr "vnt" = "vnt" by decide,
        hpv, hdiv]
  · intro hpv u
    have hpv2 : ¬ 0 < pv := not_lt.mpr hpv
    have hdiv : ¬ 0 < pv / 1000 := fun h => hpv2 (by linarith)
    simp only [compute_unit_price, if_neg hdiv, if_neg hpv2]
    simp
  · intro u hu
    simp only [List.mem_cons, not_or] at hu
    obtain ⟨h1, h2, h3, h4, h5, _⟩ := hu
    simp [compute_unit_price, h1, h2, h3, h4, h5]

/-- `qfloor` is the identity on integers. -/
theorem qfloor_intCast (z : ℤ) : qfloor (z : ℚ) = z := by
  unfold qfloor
  rw [Rat.num_intCast, Rat.den_intCast]
  exact_mod_cast Int.fdiv_one z

/-- `rndHE` is the identity on integers. -/
theorem rndHE_intCast (z : ℤ) : rndHE (z : ℚ) = z := by
  unfold rndHE
  rw [qfloor_intCast]
  norm_num

/-- `pyRound` does not move a rational that is already exact at `n`
decimal places. -/
theorem pyRound_exact (q : ℚ) (n : ℕ) (z : ℤ) (h : q * (10 : ℚ) ^ n = (z : ℚ)) :
    pyRound q n = q := by
  unfold pyRound
  rw [h, rndHE_intCast]
  rw [eq_comm, eq_div_iff (by positivity)]
  exact h

/-- C2 witness: the three concrete unit prices named by the spec. -/
theorem C2_witness :
    compute_unit_price (5 / 2 : ℚ) 500 "g" = (some 5, some "EUR/kg") ∧
    compute_unit_price (6 / 5 : ℚ) (3 / 2) "l" = (some (4 / 5), some "EUR/l") ∧
    compute_unit_price 3 0 "kg" = (none, none) := by
  refine ⟨?_, ?_, ?_⟩
  · have h := ((C2_unit_price (5 / 2) 500).1 (by norm_num)).1
    rw [h, show (5 / 2 : ℚ) / (500 / 1000) = 5 by norm_num,
      pyRound_exact 5 4 50000 (by norm_num)]
  · have h := ((C2_unit_price (6 / 5) (3 / 2)).1 (by norm_num)).2.2.2.1
    rw [h, show (6 / 5 : ℚ) / (3 / 2) = 4 / 5 by norm_num,
      pyRound_exact (4 / 5) 4 8000 (by norm_num)]
  · exact (C2_unit_price 3 0).2.1 (le_refl 0) "kg"

/-! ### Lemmas on the source-iteration loop -/

theorem foldl_offers_acc (wk : String) (srcs : List (String × SrcResult))
    (a : List Offer) :
    srcs.foldl
      (fun acc s =>
        match s.2 with
        | SrcResult.fault _ => acc
        | SrcResult.pages ps => acc ++ parse_pdf_offers ps s.1 wk)
      a = a ++ collectOffers srcs wk := by
  induction srcs generalizing a with
  | nil => simp [collectOffers]
  | cons s rest ih =>
    cases s with
    | mk u res =>
      cases res with
      | fault m =>
        simp only [List.foldl_cons, collectOffers] at *
        rw [ih a]
      | pages ps =>
        simp only [List.foldl_cons, collectOffers] at *
        rw [ih (a ++ parse_pdf_offers ps u wk), ih ([] ++ parse_pdf_offers ps u wk)]
        simp

theorem collectOffers_append (wk : String) (l1 l2 : List (String × SrcResult)) :
    collectOffers (l1 ++ l2) wk = collectOffers l1 wk ++ collectOffers l2 wk := by
  unfold collectOffers
  rw [List.foldl_append]
  rw [show (List.foldl _ [] l1 : List Offer) = collectOffers l1 wk from rfl]
  exact foldl_offers_acc wk l2 (collectOffers l1 wk)

theorem collectOffers_skip_fault (wk u m : String)
    (pre post : List (String × SrcResult)) :
    collectOffers (pre ++ (u, SrcResult.fault m) :: post) wk =
      collectOffers (pre ++ post) wk := by
  have h : collectOffers ((u, SrcResult.fault m) :: post) wk =
      collectOffers post wk := by
    simp [collectOffers]
  rw [collectOffers_append, h, ← collectOffers_append]

/-! ### C7, C8, C9, C1: the job/run lifecycle -/

/-- C7 — for the claimed job, one invocation writes exactly the status
sequence `running` then one terminal status: `done` paired with run `ok`, or
`failed` paired with run `fail`; the two terminal transitions are mutually
exclusive and there are no other edges from the initial `queued` state. -/
theorem C7_lifecycle (w : WorldIn) (hgate : w.manual = true ∨ w.inWindow = true)
    (j : Job) (hj : w.queuedJob = some j) :
    ((mainRun w).jobTrace = [JobStatus.running, JobStatus.done] ∧
      (mainRun w).runTrace = [RunStatus.ok] ∧
      (mainRun w).result = Except.ok ()) ∨
    ((mainRun w).jobTrace = [JobStatus.running, JobStatus.failed] ∧
      (mainRun w).runTrace = [RunStatus.fail] ∧
      ∃ e, (mainRun w).result = Except.error e) := by
  have hcond : (!w.manual && !w.inWindow) = false := by
    rcases hgate with h | h <;> simp [h]
  unfold mainRun
  rw [hj, hcond]
  simp only [Bool.false_eq_true, if_false]
  cases hl : w.linksRes with
  | error e => exact Or.inr ⟨rfl, rfl, e, rfl⟩
  | ok srcs =>
    dsimp only
    by_cases hemp : (collectOffers srcs (effWeek j w.weekNow)).isEmpty = true
    · rw [if_pos hemp]
      exact Or.inl ⟨rfl, rfl, rfl⟩
    · rw [if_neg hemp]
      cases hif : w.insertFault with
      | some e => exact Or.inr ⟨rfl, rfl, e, rfl⟩
      | none => exact Or.inl ⟨rfl, rfl, rfl⟩

/-- C7 witness: the end-to-end scenario world takes the success branch of
the state machine. -/
theorem C7_witness :
    ((mainRun wScenario).jobTrace = [JobStatus.running, JobStatus.done] ∧
      (mainRun wScenario).runTrace = [RunStatus.ok] ∧
      (mainRun wScenario).result = Except.ok ()) ∨
    ((mainRun wScenario).jobTrace = [JobStatus.running, JobStatus.failed] ∧
      (mainRun wScenario).runTrace = [RunStatus.fail] ∧
      ∃ e, (mainRun wScenario).result = Except.error e) :=
  C7_lifecycle wScenario (Or.inl rfl) jobA rfl

/-- C8 — an exception escapes the body after `begin` exactly when link
discovery raises or the upsert of a nonempty batch raises; in that case the
handler records the failed job/run rows (status, `finished_at`, the
structured `{"worker": e}` payload) and re-raises the same exception. -/
theorem C8_fail_loud (w : WorldIn) (hgate : w.manual = true ∨ w.inWindow = true)
    (j : Job) (hj : w.queuedJob = some j) (e : String) :
    ((mainRun w).result = Except.error e ↔
      (w.linksRes = Except.error e ∨
        ∃ srcs, w.linksRes = Except.ok srcs ∧
          (collectOffers srcs (effWeek j w.weekNow)).isEmpty = false ∧
          w.insertFault = some e)) ∧
    ((mainRun w).result = Except.error e →
      ∃ jr rr, (mainRun w).jobRec = some jr ∧ (mainRun w).runRec = some rr ∧
        jr.status = JobStatus.failed ∧ rr.status = RunStatus.fail ∧
        jr.finished_at = some w.finishedAt ∧
        rr.finished_at = some w.finishedAt ∧
        jr.error = some (some e) ∧
        rr.errors = some (some ("worker", e))) := by
  have hcond : (!w.manual && !w.inWindow) = false := by
    rcases hgate with h | h <;> simp [h]
  unfold mainRun
  rw [hj, hcond]
  simp only [Bool.false_eq_true, if_false]
  cases hl : w.linksRes with
  | error e0 =>
    dsimp only
    constructor
    · constructor
      · intro h
        have he : e0 = e := by simpa [failOut] using h
        subst he
        exact Or.inl rfl
      · rintro (h1 | ⟨srcs, h1, h2, h3⟩)
        · injection h1 with h1
          subst h1
          rfl
        · exact absurd h1 (by simp)
    · intro h
      have he : e0 = e := by simpa [failOut] using h
      subst he
      exact ⟨failedJobRec w e0, failedRunRec w e0,
        rfl, rfl, rfl, rfl, rfl, rfl, rfl, rfl⟩
  | ok srcs =>
    dsimp only
    by_cases hemp : (collectOffers srcs (effWeek j w.weekNow)).isEmpty = true
    · rw [if_pos hemp]
      constructor
      · constructor
        · intro h
          exact absurd h (by simp)
        · rintro (h1 | ⟨srcs', h1, h2, h3⟩)
          · exact absurd h1 (by simp)
          · injection h1 with h1
            subst h1
            rw [hemp] at h2
            exact absurd h2 (by simp)
      · intro h
        exact absurd h (by simp)
    · rw [if_neg hemp]
      cases hif : w.insertFault with
      | some e0 =>
        constructor
        · constructor
          · intro h
            have he : e0 = e := by simpa [failOut] using h
            subst he
            exact Or.inr ⟨srcs, rfl, by simpa using hemp, rfl⟩
          · rintro (h1 | ⟨srcs', h1, h2, h3⟩)
            · exact absurd h1 (by simp)
            · injection h3 with h3
              subst h3
              rfl
        · intro h
          have he : e0 = e := by simpa [failOut] using h
          subst he
          exact ⟨failedJobRec w e0, failedRunRec w e0,
            rfl, rfl, rfl, rfl, rfl, rfl, rfl, rfl⟩
      | none =>
        constructor
        · constructor
          · intro h
            exact absurd h (by simp)
          · rintro (h1 | ⟨srcs', h1, h2, h3⟩)
            · exact absurd h1 (by simp)
            · exact absurd h3 (by simp)
        · intro h
          exact absurd h (by simp)

/-- C8 witness: with link discovery raising `"boom"`, the invocation
re-raises `"boom"` after recording the failed job and run rows. -/
theorem C8_witness :
    (mainRun wLinksFail).result = Except.error "boom" ∧
    ∃ jr rr, (mainRun wLinksFail).jobRec = some jr ∧
      (mainRun wLinksFail).runRec = some rr ∧
      jr.status = JobStatus.failed ∧ rr.status = RunStatus.fail ∧
      jr.finished_at = some "t1" ∧ rr.finished_at = some "t1" ∧
      jr.error = some (some "boom") ∧
      rr.errors = some (some ("worker", "boom")) := by
  have h := C8_fail_loud wLinksFail (Or.inl rfl) jobA rfl "boom"
  have h1 : (mainRun wLinksFail).result = Except.error "boom" :=
    h.1.mpr (Or.inl rfl)
  exact ⟨h1, h.2 h1⟩

/-- Helper: the full outcome of a claimed invocation whose link discovery
and upsert both succeed. -/
theorem mainRun_success (w : WorldIn)
    (hgate : w.manual = true ∨ w.inWindow = true)
    (j : Job) (hj : w.queuedJob = some j) (srcs : List (String × SrcResult))
    (hl : w.linksRes = Except.ok srcs) (hins : w.insertFault = none) :
    mainRun w =
      { jobRec := some (doneJobRec w),
        runRec := some (okRunRec w srcs.length
          (collectOffers srcs (effWeek j w.weekNow)).length),
        jobTrace := [JobStatus.running, JobStatus.done],
        runTrace := [RunStatus.ok],
        inserted := some (collectOffers srcs (effWeek j w.weekNow)),
        result := Except.ok () } := by
  have hcond : (!w.manual && !w.inWindow) = false := by
    rcases hgate with h | h <;> simp [h]
  unfold mainRun
  rw [hj, hcond, hl, hins]
  simp only [Bool.false_eq_true, if_false]
  rw [ite_self]

/-- C1 counterexample — with two successfully processed source documents the
run still records `stores_ok = 1`, not the number of successfully processed
sources (which is 2): `stores_ok` is hardcoded on the success path. -/
theorem C1_counterexample : ¬ ClaimC1Prop := by
  intro h
  have h2 := h wTwoOk
    [("u1", SrcResult.pages [""]), ("u2", SrcResult.pages [""])]
    (okRunRec wTwoOk 2 0) rfl rfl rfl
  exact absurd h2 (by decide)

/-- C1 (amended) — on every run that reaches the success path the run row
records `status = ok`, the constant `stores_ok = 1` (the single Lidl store
of stage 1, regardless of per-document outcomes), and `offers_count` equal
to the size of the extracted batch, while the job ends `done`. -/
theorem C1_amended_run_summary (w : WorldIn)
    (hgate : w.manual = true ∨ w.inWindow = true)
    (j : Job) (hj : w.queuedJob = some j) (srcs : List (String × SrcResult))
    (hl : w.linksRes = Except.ok srcs) (hins : w.insertFault = none) :
    ∃ jr rr, (mainRun w).jobRec = some jr ∧ (mainRun w).runRec = some rr ∧
      rr.status = RunStatus.ok ∧ rr.stores_ok = some 1 ∧
      rr.offers_count =
        some (collectOffers srcs (effWeek j w.weekNow)).length ∧
      jr.status = JobStatus.done ∧
      (mainRun w).result = Except.ok () := by
  rw [mainRun_success w hgate j hj srcs hl hins]
  exact ⟨doneJobRec w, _, rfl, rfl, rfl, rfl, rfl, rfl, rfl⟩

/-- C1 witness — the end-to-end scenario: week `2024-W05`, two source
documents, one extracting 3 valid offers and one failing to fetch; the run
ends `ok` with `stores_ok = 1` and `offers_count = 3`, the job ends
`done`. -/
theorem C1_witness :
    ∃ jr rr, (mainRun wScenario).jobRec = some jr ∧
      (mainRun wScenario).runRec = some rr ∧
      rr.status = RunStatus.ok ∧ rr.stores_ok = some 1 ∧
      rr.offers_count = some 3 ∧ jr.status = JobStatus.done ∧
      (mainRun wScenario).result = Except.ok () := by
  obtain ⟨jr, rr, h1, h2, h3, h4, h5, h6, h7⟩ :=
    C1_amended_run_summary wScenario (Or.inl rfl) jobA rfl
      [("u1", SrcResult.pages [docPages]),
       ("u2", SrcResult.fault "fetch failed")] rfl rfl
  refine ⟨jr, rr, h1, h2, h3, h4, ?_, h6, h7⟩
  rw [h5]
  rfl

/-- C9 — a per-source fetch/parse fault is absorbed at the source-iteration
level: the faulted document contributes nothing, the remaining documents
are still processed (the batch equals the batch of the other documents),
and the job still ends `done` with run status `ok`. -/
theorem C9_per_source (w : WorldIn)
    (hgate : w.manual = true ∨ w.inWindow = true)
    (j : Job) (hj : w.queuedJob = some j)
    (pre post : List (String × SrcResult)) (u m : String)
    (hl : w.linksRes = Except.ok (pre ++ (u, SrcResult.fault m) :: post))
    (hins : w.insertFault = none) :
    ∃ jr rr, (mainRun w).jobRec = some jr ∧ (mainRun w).runRec = some rr ∧
      jr.status = JobStatus.done ∧ rr.status = RunStatus.ok ∧
      (mainRun w).result = Except.ok () ∧
      (mainRun w).inserted =
        some (collectOffers (pre ++ post) (effWeek j w.weekNow)) := by
  rw [mainRun_success w hgate j hj _ hl hins]
  refine ⟨doneJobRec w, _, rfl, rfl, rfl, rfl, rfl, ?_⟩
  simp only [collectOffers_skip_fault]

/-- C9 witness: in the scenario world the second document's fetch fault
leaves the batch equal to the first document's offers and the job ends
`done`/`ok`. -/
theorem C9_witness :
    ∃ jr rr, (mainRun wScenario).jobRec = some jr ∧
      (mainRun wScenario).runRec = some rr ∧
      jr.status = JobStatus.done ∧ rr.status = RunStatus.ok ∧
      (mainRun wScenario).result = Except.ok () ∧
      (mainRun wScenario).inserted =
        some (collectOffers [("u1", SrcResult.pages [docPages])]
          (effWeek jobA wScenario.weekNow)) :=
  C9_per_source wScenario (Or.inl rfl) jobA rfl
    [("u1", SrcResult.pages [docPages])] [] "u2" "fetch failed" rfl rfl

/-! ### Soundness and completeness of the price matcher -/

theorem priceAtStart_sound {s g r : List Char}
    (h : priceAtStart s = some (g, r)) : PriceTok s g := by
  simp only [priceAtStart] at h
  split at h
  · simp at h
  · rename_i hguard
    split at h
    · rename_i c a b r3 hr
      split at h
      · rename_i hcond
        split at h
        · rename_i r4 hws
          simp only [Option.some.injEq, Prod.mk.injEq] at h
          obtain ⟨hg, -⟩ := h
          simp only [Bool.or_eq_true, not_or, List.isEmpty_eq_true,
            decide_eq_true_eq, not_lt] at hguard
          simp only [isSepDot, Bool.and_eq_true, Bool.or_eq_true,
            decide_eq_true_eq] at hcond
          refine ⟨s.takeWhile Char.isDigit, c, a, b,
            r3.takeWhile isWsChar, r4, ?_, hguard.1, by omega,
            mem_takeWhile_pred Char.isDigit s, hcond.1.1, hcond.1.2,
            hcond.2, mem_takeWhile_pred isWsChar r3, hg.symm⟩
          have hr3 : r3 = r3.takeWhile isWsChar ++ '€' :: r4 := by
            rw [← hws, List.takeWhile_append_dropWhile]
          calc s = s.takeWhile Char.isDigit ++ s.dropWhile Char.isDigit := by
                  rw [List.takeWhile_append_dropWhile]
            _ = s.takeWhile Char.isDigit ++ (c :: a :: b :: r3) := by rw [hr]
            _ = _ := by conv_lhs => rw [hr3]
        · simp at h
      · simp at h
    · simp at h

theorem priceAtStart_complete (ds : List Char) (c a b : Char)
    (ws r4 : List Char) (hds : ds ≠ []) (hlen : ds.length ≤ 3)
    (hdig : ∀ x ∈ ds, x.isDigit = true) (hc : c = '.' ∨ c = ',')
    (ha : a.isDigit = true) (hb : b.isDigit = true)
    (hws : ∀ x ∈ ws, isWsChar x = true) :
    priceAtStart (ds ++ c :: a :: b :: (ws ++ '€' :: r4)) =
      some (ds ++ [c, a, b], r4) := by
  have hcd : c.isDigit = false := by rcases hc with rfl | rfl <;> rfl
  obtain ⟨ht, hd⟩ :=
    spanExact Char.isDigit ds c (a :: b :: (ws ++ '€' :: r4)) hdig hcd
  obtain ⟨-, hwsd⟩ := spanExact isWsChar ws '€' r4 hws (by rfl)
  have h1 : ds.isEmpty = false := by
    cases ds with
    | nil => exact absurd rfl hds
    | cons x xs => rfl
  have h2 : decide (3 < ds.length) = false := decide_eq_false (by omega)
  have hsep : isSepDot c = true := by rcases hc with rfl | rfl <;> rfl
  simp only [priceAtStart]
  rw [ht, hd, h1, h2]
  simp only [Bool.or_self, Bool.false_eq_true, if_false]
  rw [hsep, ha, hb]
  simp only [Bool.and_self, if_true]
  rw [hwsd]
  rfl

theorem PriceTok_atStart {s g : List Char} :
    (∃ r, priceAtStart s = some (g, r)) ↔ PriceTok s g := by
  constructor
  · rintro ⟨r, h⟩
    exact priceAtStart_sound h
  · rintro ⟨ds, c, a, b, ws, r4, hm, hds, hlen, hdig, hc, ha, hb, hws, hg⟩
    subst hm
    subst hg
    exact ⟨r4, priceAtStart_complete ds c a b ws r4 hds hlen hdig hc ha hb hws⟩

theorem PriceTok_unique {s g g' : List Char}
    (h1 : PriceTok s g) (h2 : PriceTok s g') : g = g' := by
  obtain ⟨r, hr⟩ := PriceTok_atStart.mpr h1
  obtain ⟨r', hr'⟩ := PriceTok_atStart.mpr h2
  rw [hr] at hr'
  simp only [Option.some.injEq, Prod.mk.injEq] at hr'
  exact hr'.1

theorem PriceTok_nil (g : List Char) : ¬ PriceTok [] g := by
  rintro ⟨ds, c, a, b, ws, r4, hm, hds, -⟩
  cases ds with
  | nil => exact hds rfl
  | cons x xs => simp at hm

theorem prevCharAt_cons (p : Option Char) (c : Char) (pre : List Char) :
    prevCharAt p (c :: pre) = prevCharAt (some c) pre := by
  cases pre with
  | nil => rfl
  | cons d ds =>
    unfold prevCharAt
    rw [List.getLast?_cons_cons]
    cases h : (d :: ds).getLast? with
    | none => simp at h
    | some y => rfl

theorem POk_cons (p : Option Char) (c : Char) (pre : List Char) :
    POk p (c :: pre) ↔ POk (some c) pre := by
  unfold POk
  rw [prevCharAt_cons]

theorem goPrice_iff (s : List Char) : ∀ (p : Option Char) (g : List Char),
    goPrice p s = some g ↔ FirstPriceFrom p s g := by
  induction s with
  | nil =>
    intro p g
    constructor
    · intro h
      simp [goPrice] at h
    · rintro ⟨pre, mid, hsm, -, htok, -⟩
      have hmid : mid = [] := (List.append_eq_nil.mp hsm.symm).2
      exact absurd (hmid ▸ htok) (PriceTok_nil _)
  | cons c rest ih =>
    intro p g
    by_cases hp : prevOk p = true
    · cases hps : priceAtStart (c :: rest) with
      | some pr =>
        obtain ⟨g0, r0⟩ := pr
        have hL : goPrice p (c :: rest) = some g0 := by
          simp [goPrice, hp, hps]
        rw [hL]
        constructor
        · intro h
          have hg : g = g0 := (Option.some.inj h).symm
          subst hg
          refine ⟨[], c :: rest, rfl, hp, priceAtStart_sound hps, ?_⟩
          intro pre' mid' g' _ hlt _
          exact absurd hlt (by simp)
        · rintro ⟨pre, mid, hsm, hpok, htok, hmin⟩
          cases pre with
          | nil =>
            have hmid : mid = c :: rest := by simpa using hsm.symm
            subst hmid
            rw [PriceTok_unique htok (priceAtStart_sound hps)]
          | cons x xs =>
            exact absurd (priceAtStart_sound hps)
              (hmin [] (c :: rest) g0 (by simp) (by simp) hp)
      | none =>
        have hL : goPrice p (c :: rest) = goPrice (some c) rest := by
          simp [goPrice, hp, hps]
        rw [hL, ih (some c) g]
        constructor
        · rintro ⟨pre, mid, hsm, hpok, htok, hmin⟩
          refine ⟨c :: pre, mid, by rw [hsm]; rfl, (POk_cons p c pre).mpr hpok,
            htok, ?_⟩
          intro pre' mid' g' hsm' hlt hpok' htok'
          cases pre' with
          | nil =>
            have hmid' : mid' = c :: rest := by simpa using hsm'.symm
            subst hmid'
            obtain ⟨r', hr'⟩ := PriceTok_atStart.mpr htok'
            rw [hps] at hr'
            exact Option.noConfusion hr'
          | cons x xs =>
            have hx : x = c ∧ xs ++ mid' = rest := by simpa using hsm'.symm
            obtain ⟨rfl, hrest⟩ := hx
            exact hmin xs mid' g' hrest.symm (by simpa using hlt)
              ((POk_cons p x xs).mp hpok') htok'
        · rintro ⟨pre, mid, hsm, hpok, htok, hmin⟩
          cases pre with
          | nil =>
            exfalso
            have hmid : mid = c :: rest := by simpa using hsm.symm
            subst hmid
            obtain ⟨r', hr'⟩ := PriceTok_atStart.mpr htok
            rw [hps] at hr'
            exact Option.noConfusion hr'
          | cons x xs =>
            have hx : x = c ∧ xs ++ mid = rest := by simpa using hsm.symm
            obtain ⟨rfl, hrest⟩ := hx
            refine ⟨xs, mid, hrest.symm, (POk_cons p x xs).mp hpok, htok, ?_⟩
            intro pre' mid' g' hsm' hlt hpok' htok'
            exact hmin (x :: pre') mid' g' (by rw [hsm']; rfl)
              (by simpa using Nat.succ_lt_succ hlt)
              ((POk_cons p x pre').mpr hpok') htok'
    · have hL : goPrice p (c :: rest) = goPrice (some c) rest := by
        simp [goPrice, hp]
      rw [hL, ih (some c) g]
      constructor
      · rintro ⟨pre, mid, hsm, hpok, htok, hmin⟩
        refine ⟨c :: pre, mid, by rw [hsm]; rfl, (POk_cons p c pre).mpr hpok,
          htok, ?_⟩
        intro pre' mid' g' hsm' hlt hpok' htok'
        cases pre' with
        | nil => exact hp hpok'
        | cons x xs =>
          have hx : x = c ∧ xs ++ mid' = rest := by simpa using hsm'.symm
          obtain ⟨rfl, hrest⟩ := hx
          exact hmin xs mid' g' hrest.symm (by simpa using hlt)
            ((POk_cons p x xs).mp hpok') htok'
      · rintro ⟨pre, mid, hsm, hpok, htok, hmin⟩
        cases pre with
        | nil => exact absurd hpok hp
        | cons x xs =>
          have hx : x = c ∧ xs ++ mid = rest := by simpa using hsm.symm
          obtain ⟨rfl, hrest⟩ := hx
          refine ⟨xs, mid, hrest.symm, (POk_cons p x xs).mp hpok, htok, ?_⟩
          intro pre' mid' g' hsm' hlt hpok' htok'
          exact hmin (x :: pre') mid' g' (by rw [hsm']; rfl)
            (by simpa using Nat.succ_lt_succ hlt)
            ((POk_cons p x pre').mpr hpok') htok'

/-- C3 — the price tokenizer returns (with `','` normalised to `'.'`)
exactly the group of the leftmost token of the form "1–3 digits, `.` or `,`
separator, exactly two fractional digits, optional whitespace, euro sign"
that is not immediately preceded by another digit; a line with no such
token yields `none` and is skipped by the extractor. -/
theorem C3_price_tokenizer (s v : List Char) :
    (findPrice s = some v ↔ ∃ g, FirstPrice s g ∧ v = commaToDot g) ∧
    (findPrice s = none → ∀ wk url : String, lineCandidate wk url s = none) := by
  constructor
  · constructor
    · intro h
      unfold findPrice at h
      cases hg : goPrice none s with
      | none =>
        rw [hg] at h
        exact Option.noConfusion h
      | some g0 =>
        rw [hg] at h
        exact ⟨g0, (goPrice_iff s none g0).mp hg, (Option.some.inj h).symm⟩
    · rintro ⟨g, hfp, rfl⟩
      unfold findPrice
      rw [(goPrice_iff s none g).mpr hfp]
      rfl
  · intro h wk url
    unfold lineCandidate
    rw [h]

/-- C3 witness: the two boundary examples of the spec, and a skipped line. -/
theorem C3_witness :
    (∃ g, FirstPrice ("Pienas 100 1.99 €".data) g ∧
      "1.99".data = commaToDot g) ∧
    (∃ g, FirstPrice ("12.50€".data) g ∧ "12.50".data = commaToDot g) ∧
    lineCandidate "wk" "u" ("abc".data) = none := by
  refine ⟨?_, ?_, ?_⟩
  · exact ((C3_price_tokenizer ("Pienas 100 1.99 €".data) ("1.99".data)).1).mp rfl
  · exact ((C3_price_tokenizer ("12.50€".data) ("12.50".data)).1).mp rfl
  · exact (C3_price_tokenizer ("abc".data) []).2 rfl "wk" "u"

/-! ### Lemmas for the pack matcher -/

theorem spanSelf (p : Char → Bool) (xs : List Char)
    (hxs : ∀ x ∈ xs, p x = true) :
    xs.takeWhile p = xs ∧ xs.dropWhile p = [] := by
  induction xs with
  | nil => simp
  | cons a as ih =>
    have ha : p a = true := hxs a (by simp)
    have ih' := ih fun x hx => hxs x (by simp [hx])
    simp [List.takeWhile_cons, List.dropWhile_cons, ha, ih'.1, ih'.2]

theorem spanExactGen (p : Char → Bool) (xs zs : List Char)
    (hxs : ∀ x ∈ xs, p x = true)
    (hzs : zs = [] ∨ ∃ y ys, zs = y :: ys ∧ p y = false) :
    (xs ++ zs).takeWhile p = xs ∧ (xs ++ zs).dropWhile p = zs := by
  rcases hzs with rfl | ⟨y, ys, rfl, hy⟩
  · simpa using spanSelf p xs hxs
  · exact spanExact p xs y ys hxs hy

theorem toLower_of_digit {x : Char} (h : x.isDigit = true) : x.toLower = x := by
  simp only [Char.isDigit, Bool.and_eq_true, decide_eq_true_eq] at h
  have h2 : x.toNat ≤ 57 := h.2
  simp only [Char.toLower]
  rw [if_neg (by omega)]

theorem toLower_of_ws {x : Char} (h : isWsChar x = true) : x.toLower = x := by
  simp only [isWsChar, Bool.or_eq_true, decide_eq_true_eq] at h
  rcases h with ⟨⟨⟨⟨rfl | rfl⟩ | rfl⟩ | rfl⟩ | rfl⟩ | rfl <;> rfl

theorem toLower_of_sep {x : Char} (h : isSepDot x = true) : x.toLower = x := by
  simp only [isSepDot, Bool.or_eq_true, decide_eq_true_eq] at h
  rcases h with rfl | rfl <;> rfl

theorem ws_not_digit {x : Char} (h : isWsChar x = true) : x.isDigit = false := by
  simp only [isWsChar, Bool.or_eq_true, decide_eq_true_eq] at h
  rcases h with ⟨⟨⟨⟨rfl | rfl⟩ | rfl⟩ | rfl⟩ | rfl⟩ | rfl <;> rfl

theorem ws_not_sep {x : Char} (h : isWsChar x = true) : isSepDot x = false := by
  simp only [isWsChar, Bool.or_eq_true, decide_eq_true_eq] at h
  rcases h with ⟨⟨⟨⟨rfl | rfl⟩ | rfl⟩ | rfl⟩ | rfl⟩ | rfl <;> rfl

theorem sep_not_digit {x : Char} (h : isSepDot x = true) : x.isDigit = false := by
  simp only [isSepDot, Bool.or_eq_true, decide_eq_true_eq] at h
  rcases h with rfl | rfl <;> rfl

/-- A character whose lowercase form begins one of the five units is not a
digit, not whitespace, and not a decimal separator. -/
theorem unit_head_props {x : Char}
    (hx : x.toLower = 'k' ∨ x.toLower = 'g' ∨ x.toLower = 'l' ∨
      x.toLower = 'm' ∨ x.toLower = 'v') :
    x.isDigit = false ∧ isWsChar x = false ∧ isSepDot x = false := by
  refine ⟨?_, ?_, ?_⟩
  · by_contra hd
    have hd2 : x.isDigit = true := by simpa using hd
    have hfix := toLower_of_digit hd2
    rcases hx with h | h | h | h | h <;>
      (rw [hfix] at h; subst h; exact absurd hd2 (by decide))
  · by_contra hw
    have hw2 : isWsChar x = true := by simpa using hw
    have hfix := toLower_of_ws hw2
    rcases hx with h | h | h | h | h <;>
      (rw [hfix] at h; subst h; exact absurd hw2 (by decide))
  · by_contra hs
    have hs2 : isSepDot x = true := by simpa using hs
    have hfix := toLower_of_sep hs2
    rcases hx with h | h | h | h | h <;>
      (rw [hfix] at h; subst h; exact absurd hs2 (by decide))

/-- Shape analysis of a unit token. -/
theorem unitTok_cases {us : List Char} {u : String} (h : UnitTokOf us u) :
    (∃ x y, us = [x, y] ∧ x.toLower = 'k' ∧ y.toLower = 'g' ∧ u = "kg") ∨
    (∃ x, us = [x] ∧ x.toLower = 'g' ∧ u = "g") ∨
    (∃ x, us = [x] ∧ x.toLower = 'l' ∧ u = "l") ∨
    (∃ x y, us = [x, y] ∧ x.toLower = 'm' ∧ y.toLower = 'l' ∧ u = "ml") ∨
    (∃ x y z, us = [x, y, z] ∧ x.toLower = 'v' ∧ y.toLower = 'n' ∧
      z.toLower = 't' ∧ u = "vnt") := by
  obtain ⟨hm, hu⟩ := h
  simp only [List.mem_cons, List.not_mem_nil, or_false] at hu
  rcases hu with rfl | rfl | rfl | rfl | rfl
  · cases us with
    | nil => simp at hm
    | cons x t =>
      cases t with
      | nil => simp at hm
      | cons y t2 =>
        cases t2 with
        | nil =>
          simp only [List.map_cons, List.map_nil] at hm
          injection hm with h1 hm
          injection hm with h2 hm
          exact Or.inl ⟨x, y, rfl, h1, h2, rfl⟩
        | cons z t3 => simp at hm
  · cases us with
    | nil => simp at hm
    | cons x t =>
      cases t with
      | nil =>
        simp only [List.map_cons, List.map_nil] at hm
        injection hm with h1 hm
        exact Or.inr (Or.inl ⟨x, rfl, h1, rfl⟩)
      | cons y t2 => simp at hm
  · cases us with
    | nil => simp at hm
    | cons x t =>
      cases t with
      | nil =>
        simp only [List.map_cons, List.map_nil] at hm
        injection hm with h1 hm
        exact Or.inr (Or.inr (Or.inl ⟨x, rfl, h1, rfl⟩))
      | cons y t2 => simp at hm
  · cases us with
    | nil => simp at hm
    | cons x t =>
      cases t with
      | nil => simp at hm
      | cons y t2 =>
        cases t2 with
        | nil =>
          simp only [List.map_cons, List.map_nil] at hm
          injection hm with h1 hm
          injection hm with h2 hm
          exact Or.inr (Or.inr (Or.inr (Or.inl ⟨x, y, rfl, h1, h2, rfl⟩)))
        | cons z t3 => simp at hm
  · cases us with
    | nil => simp at hm
    | cons x t =>
      cases t with
      | nil => simp at hm
      | cons y t2 =>
        cases t2 with
        | nil => simp at hm
        | cons z t3 =>
          cases t3 with
          | nil =>
            simp only [List.map_cons, List.map_nil] at hm
            injection hm with h1 hm
            injection hm with h2 hm
            injection hm with h3 hm
            exact Or.inr (Or.inr (Or.inr (Or.inr ⟨x, y, z, rfl, h1, h2, h3, rfl⟩)))
          | cons w t4 => simp at hm

theorem ciPrefix_sound : ∀ (pat t rest : List Char),
    ciPrefix pat t = some rest →
    ∃ us, t = us ++ rest ∧ us.map Char.toLower = pat := by
  intro pat
  induction pat with
  | nil =>
    intro t rest h
    simp only [ciPrefix, Option.some.injEq] at h
    exact ⟨[], by simp [h], rfl⟩
  | cons p ps ih =>
    intro t rest h
    cases t with
    | nil => exact Option.noConfusion h
    | cons c cs =>
      unfold ciPrefix at h
      by_cases hc : c.toLower = p
      · rw [if_pos hc] at h
        obtain ⟨us, hsplit, hmap⟩ := ih cs rest h
        exact ⟨c :: us, by simp [hsplit], by simp [hmap, hc]⟩
      · rw [if_neg hc] at h
        exact Option.noConfusion h

theorem ciPrefix_complete : ∀ (us rest pat : List Char),
    us.map Char.toLower = pat → ciPrefix pat (us ++ rest) = some rest := by
  intro us
  induction us with
  | nil =>
    intro rest pat h
    subst h
    rfl
  | cons c cs ih =>
    intro rest pat h
    simp only [List.map_cons] at h
    subst h
    simp only [List.cons_append, ciPrefix, if_pos rfl]
    exact ih rest _ rfl

theorem boundary_iff {r : List Char} :
    boundaryOk r = true ↔
      (r = [] ∨ ∃ x r', r = x :: r' ∧ isWordChar x = false) := by
  cases r with
  | nil => simp [boundaryOk]
  | cons x r' =>
    simp [boundaryOk]

theorem tryUnit_sound {pat : List Char} {canon : String} {t : List Char}
    {u : String} {rest : List Char}
    (h : tryUnit pat canon t = some (u, rest)) :
    u = canon ∧ boundaryOk rest = true ∧
      ∃ us, t = us ++ rest ∧ us.map Char.toLower = pat := by
  unfold tryUnit at h
  split at h
  · rename_i rest0 hci
    split at h
    · rename_i hb
      simp only [Option.some.injEq, Prod.mk.injEq] at h
      obtain ⟨hu, hr⟩ := h
      subst hu
      subst hr
      exact ⟨rfl, hb, ciPrefix_sound pat t _ hci⟩
    · exact Option.noConfusion h
  · exact Option.noConfusion h

theorem unitAt_sound {t : List Char} {u : String} {rest : List Char}
    (h : unitAt t = some (u, rest)) :
    ∃ us, t = us ++ rest ∧ UnitTokOf us u ∧ boundaryOk rest = true := by
  unfold unitAt at h
  split at h
  · rename_i r0 h1
    obtain ⟨hu, hb, us, hsplit, hmap⟩ := tryUnit_sound (h1.trans h)
    subst hu
    exact ⟨us, hsplit, ⟨hmap, by simp⟩, hb⟩
  · split at h
    · rename_i r0 h1
      obtain ⟨hu, hb, us, hsplit, hmap⟩ := tryUnit_sound (h1.trans h)
      subst hu
      exact ⟨us, hsplit, ⟨hmap, by simp⟩, hb⟩
    · split at h
      · rename_i r0 h1
        obtain ⟨hu, hb, us, hsplit, hmap⟩ := tryUnit_sound (h1.trans h)
        subst hu
        exact ⟨us, hsplit, ⟨hmap, by simp⟩, hb⟩
      · split at h
        · rename_i r0 h1
          obtain ⟨hu, hb, us, hsplit, hmap⟩ := tryUnit_sound (h1.trans h)
          subst hu
          exact ⟨us, hsplit, ⟨hmap, by simp⟩, hb⟩
        · obtain ⟨hu, hb, us, hsplit, hmap⟩ := tryUnit_sound h
          subst hu
          exact ⟨us, hsplit, ⟨hmap, by simp⟩, hb⟩

theorem unitAt_complete {us : List Char} {u : String} (r : List Char)
    (hut : UnitTokOf us u) (hb : boundaryOk r = true) :
    unitAt (us ++ r) = some (u, r) := by
  rcases unitTok_cases hut with hc | hc | hc | hc | hc
  · obtain ⟨x, y, rfl, hx, hy, rfl⟩ := hc
    simp [unitAt, tryUnit, ciPrefix, hx, hy, hb]
  · obtain ⟨x, rfl, hx, rfl⟩ := hc
    simp [unitAt, tryUnit, ciPrefix, hx, hb]
  · obtain ⟨x, rfl, hx, rfl⟩ := hc
    simp [unitAt, tryUnit, ciPrefix, hx, hb]
  · obtain ⟨x, y, rfl, hx, hy, rfl⟩ := hc
    simp [unitAt, tryUnit, ciPrefix, hx, hy, hb]
  · obtain ⟨x, y, z, rfl, hx, hy, hz, rfl⟩ := hc
    simp [unitAt, tryUnit, ciPrefix, hx, hy, hz, hb]

theorem packNum_sound {r t r2 : List Char} (h : packNum r = (t, r2)) :
    r = t ++ r2 ∧ OptFrac t := by
  unfold packNum at h
  split at h
  · rename_i c d r3
    by_cases hg : (isSepDot c && d.isDigit) = true
    · rw [if_pos hg] at h
      injection h with h1 h2
      subst h1
      subst h2
      simp only [Bool.and_eq_true] at hg
      constructor
      · simp [List.takeWhile_append_dropWhile]
      · refine Or.inr ⟨c, (d :: r3).takeWhile Char.isDigit, rfl, ?_, ?_,
          mem_takeWhile_pred Char.isDigit (d :: r3)⟩
        · have := hg.1
          simp only [isSepDot, Bool.or_eq_true, decide_eq_true_eq] at this
          exact this
        · rw [List.takeWhile_cons, if_pos hg.2]
          simp
    · rw [if_neg hg] at h
      injection h with h1 h2
      subst h1
      subst h2
      exact ⟨rfl, Or.inl rfl⟩
  · injection h with h1 h2
    subst h1
    subst h2
    exact ⟨rfl, Or.inl rfl⟩

theorem packNum_skip {r : List Char}
    (hr : r = [] ∨ ∃ x xs, r = x :: xs ∧ isSepDot x = false) :
    packNum r = ([], r) := by
  rcases hr with rfl | ⟨x, xs, rfl, hx⟩
  · rfl
  · cases xs with
    | nil => rfl
    | cons d r3 =>
      simp only [packNum, hx, Bool.false_and, Bool.false_eq_true, if_false]

theorem packNum_frac {c : Char} {fs rest : List Char}
    (hc : isSepDot c = true) (hfs : fs ≠ [])
    (hdig : ∀ x ∈ fs, x.isDigit = true)
    (hrest : rest = [] ∨ ∃ y ys, rest = y :: ys ∧ y.isDigit = false) :
    packNum (c :: (fs ++ rest)) = (c :: fs, rest) := by
  cases fs with
  | nil => exact absurd rfl hfs
  | cons f0 fs' =>
    have hf0 : f0.isDigit = true := hdig f0 (by simp)
    obtain ⟨hta, htd⟩ := spanExactGen Char.isDigit (f0 :: fs') rest hdig hrest
    simp only [List.cons_append, packNum, hc, hf0, Bool.and_self, if_true]
    rw [show f0 :: (fs' ++ rest) = (f0 :: fs') ++ rest from rfl, hta, htd]

theorem packAtStart_sound {s g : List Char} {u : String} {rest : List Char}
    (h : packAtStart s = some (g, u, rest)) : PackTok s g u := by
  unfold packAtStart at h
  split at h
  · exact Option.noConfusion h
  · rename_i hne
    split at h
    · rename_i u0 rest0 hua
      simp only [Option.some.injEq, Prod.mk.injEq] at h
      obtain ⟨hg, hu, hr⟩ := h
      subst hu
      subst hr
      obtain ⟨hsplit2, hof⟩ :=
        @packNum_sound (s.dropWhile Char.isDigit)
          (packNum (s.dropWhile Char.isDigit)).1
          (packNum (s.dropWhile Char.isDigit)).2 rfl
      obtain ⟨us, hsplit3, hut, hb⟩ := unitAt_sound hua
      refine ⟨s.takeWhile Char.isDigit, (packNum (s.dropWhile Char.isDigit)).1,
        (packNum (s.dropWhile Char.isDigit)).2.takeWhile isWsChar, us, rest0,
        ?_, ?_, mem_takeWhile_pred Char.isDigit s, hof,
        mem_takeWhile_pred isWsChar _, hut, boundary_iff.mp hb, hg.symm⟩
      · calc s = s.takeWhile Char.isDigit ++ s.dropWhile Char.isDigit := by
              rw [List.takeWhile_append_dropWhile]
          _ = s.takeWhile Char.isDigit ++
              ((packNum (s.dropWhile Char.isDigit)).1 ++
                (packNum (s.dropWhile Char.isDigit)).2) := by
              conv_lhs => rw [hsplit2]
          _ = _ := by
              conv_lhs =>
                rw [show (packNum (s.dropWhile Char.isDigit)).2 =
                  (packNum (s.dropWhile Char.isDigit)).2.takeWhile isWsChar ++
                  (packNum (s.dropWhile Char.isDigit)).2.dropWhile isWsChar from
                  (List.takeWhile_append_dropWhile isWsChar
                    (packNum (s.dropWhile Char.isDigit)).2).symm]
              rw [hsplit3]
              simp [List.append_assoc]
      · intro hnil
        rw [List.isEmpty_eq_true] at hne
        exact hne hnil
    · exact Option.noConfusion h

theorem packAtStart_complete (ds t ws us : List Char) (u : String)
    (r : List Char) (hds : ds ≠ []) (hdig : ∀ x ∈ ds, x.isDigit = true)
    (hof : OptFrac t) (hws : ∀ x ∈ ws, isWsChar x = true)
    (hut : UnitTokOf us u)
    (hbr : r = [] ∨ ∃ x r', r = x :: r' ∧ isWordChar x = false) :
    packAtStart (ds ++ t ++ ws ++ us ++ r) = some (ds ++ t, u, r) := by
  have hus : ∃ x0 us', us = x0 :: us' ∧ x0.isDigit = false ∧
      isWsChar x0 = false ∧ isSepDot x0 = false := by
    rcases unitTok_cases hut with hc | hc | hc | hc | hc
    · obtain ⟨x, y, rfl, hx, hy, rfl⟩ := hc
      exact ⟨x, [y], rfl, unit_head_props (Or.inl hx)⟩
    · obtain ⟨x, rfl, hx, rfl⟩ := hc
      exact ⟨x, [], rfl, unit_head_props (Or.inr (Or.inl hx))⟩
    · obtain ⟨x, rfl, hx, rfl⟩ := hc
      exact ⟨x, [], rfl, unit_head_props (Or.inr (Or.inr (Or.inl hx)))⟩
    · obtain ⟨x, y, rfl, hx, hy, rfl⟩ := hc
      exact ⟨x, [y], rfl, unit_head_props (Or.inr (Or.inr (Or.inr (Or.inl hx))))⟩
    · obtain ⟨x, y, z, rfl, hx, hy, hz, rfl⟩ := hc
      exact ⟨x, [y, z], rfl,
        unit_head_props (Or.inr (Or.inr (Or.inr (Or.inr hx))))⟩
  obtain ⟨x0, us', husx, hxd, hxw, hxs⟩ := hus
  -- the first character after the digit run is not a digit
  have hnd : t ++ ws ++ us ++ r = [] ∨
      ∃ y ys, t ++ ws ++ us ++ r = y :: ys ∧ y.isDigit = false := by
    rcases hof with rfl | ⟨c, fs, rfl, hcsep, -, -⟩
    · cases ws with
      | nil =>
        rw [husx]
        exact Or.inr ⟨x0, us' ++ r, by simp, hxd⟩
      | cons w ws2 =>
        exact Or.inr ⟨w, ws2 ++ us ++ r, by simp,
          ws_not_digit (hws w (by simp))⟩
    · refine Or.inr ⟨c, fs ++ ws ++ us ++ r, by simp, sep_not_digit ?_⟩
      rcases hcsep with rfl | rfl <;> rfl
  obtain ⟨hta, htd⟩ := spanExactGen Char.isDigit ds (t ++ ws ++ us ++ r) hdig
    (by simpa [List.append_assoc] using hnd)
  -- packNum consumes exactly the optional fractional part
  have hpn : packNum (t ++ ws ++ us ++ r) = (t, ws ++ us ++ r) := by
    rcases hof with rfl | ⟨c, fs, rfl, hcsep, hfsne, hfsd⟩
    · apply packNum_skip
      cases ws with
      | nil =>
        rw [husx]
        exact Or.inr ⟨x0, us' ++ r, by simp, hxs⟩
      | cons w ws2 =>
        exact Or.inr ⟨w, ws2 ++ us ++ r, by simp,
          ws_not_sep (hws w (by simp))⟩
    · have hrest : ws ++ us ++ r = [] ∨
          ∃ y ys, ws ++ us ++ r = y :: ys ∧ y.isDigit = false := by
        cases ws with
        | nil =>
          rw [husx]
          exact Or.inr ⟨x0, us' ++ r, by simp, hxd⟩
        | cons w ws2 =>
          exact Or.inr ⟨w, ws2 ++ us ++ r, by simp,
            ws_not_digit (hws w (by simp))⟩
      have hcsep2 : isSepDot c = true := by
        rcases hcsep with rfl | rfl <;> rfl
      have := @packNum_frac c fs (ws ++ us ++ r) hcsep2 hfsne hfsd hrest
      simpa [List.append_assoc] using this
  have hwsd : (ws ++ us ++ r).dropWhile isWsChar = us ++ r := by
    have := (spanExactGen isWsChar ws (us ++ r) hws
      (by rw [husx]; exact Or.inr ⟨x0, us' ++ r, by simp, hxw⟩)).2
    simpa [List.append_assoc] using this
  have hua : unitAt (us ++ r) = some (u, r) := by
    apply unitAt_complete r hut
    rw [boundary_iff]
    exact hbr
  have hds' : ds.isEmpty = false := by
    cases ds with
    | nil => exact absurd rfl hds
    | cons a l => rfl
  unfold packAtStart
  rw [show ds ++ t ++ ws ++ us ++ r = ds ++ (t ++ ws ++ us ++ r) by
    simp [List.append_assoc]]
  rw [hta, htd, hds', hpn]
  simp only [Bool.false_eq_true, if_false]
  rw [hwsd, hua]

theorem PackTok_atStart {s g : List Char} {u : String} :
    (∃ r, packAtStart s = some (g, u, r)) ↔ PackTok s g u := by
  constructor
  · rintro ⟨r, h⟩
    exact packAtStart_sound h
  · rintro ⟨ds, t, ws, us, r, hm, hds, hdig, hof, hws, hut, hbr, hg⟩
    subst hm
    subst hg
    exact ⟨r, packAtStart_complete ds t ws us u r hds hdig hof hws hut hbr⟩

theorem PackTok_unique {s g g' : List Char} {u u' : String}
    (h1 : PackTok s g u) (h2 : PackTok s g' u') : g = g' ∧ u = u' := by
  obtain ⟨r, hr⟩ := PackTok_atStart.mpr h1
  obtain ⟨r', hr'⟩ := PackTok_atStart.mpr h2
  rw [hr] at hr'
  simp only [Option.some.injEq, Prod.mk.injEq] at hr'
  exact ⟨hr'.1, hr'.2.1⟩

theorem PackTok_nil (g : List Char) (u : String) : ¬ PackTok [] g u := by
  rintro ⟨ds, t, ws, us, r, hm, hds, -⟩
  cases ds with
  | nil => exact hds rfl
  | cons x xs => simp at hm

theorem goPack_iff (s : List Char) : ∀ (g : List Char) (u : String),
    goPack s = some (g, u) ↔ FirstPack s g u := by
  induction s with
  | nil =>
    intro g u
    constructor
    · intro h
      exact Option.noConfusion h
    · rintro ⟨pre, mid, hsm, htok, -⟩
      have hmid : mid = [] := (List.append_eq_nil.mp hsm.symm).2
      exact absurd (hmid ▸ htok) (PackTok_nil _ _)
  | cons c rest ih =>
    intro g u
    cases hps : packAtStart (c :: rest) with
    | some pr =>
      obtain ⟨g0, u0, r0⟩ := pr
      have hL : goPack (c :: rest) = some (g0, u0) := by
        simp [goPack, hps]
      rw [hL]
      constructor
      · intro h
        simp only [Option.some.injEq, Prod.mk.injEq] at h
        obtain ⟨hg, hu⟩ := h
        subst hg
        subst hu
        refine ⟨[], c :: rest, rfl, packAtStart_sound hps, ?_⟩
        intro pre' mid' g' u' _ hlt
        exact absurd hlt (by simp)
      · rintro ⟨pre, mid, hsm, htok, hmin⟩
        cases pre with
        | nil =>
          have hmid : mid = c :: rest := by simpa using hsm.symm
          subst hmid
          obtain ⟨hg, hu⟩ := PackTok_unique htok (packAtStart_sound hps)
          rw [hg, hu]
        | cons x xs =>
          exact absurd (packAtStart_sound hps)
            (hmin [] (c :: rest) g0 u0 (by simp) (by simp))
    | none =>
      have hL : goPack (c :: rest) = goPack rest := by
        simp [goPack, hps]
      rw [hL, ih g u]
      constructor
      · rintro ⟨pre, mid, hsm, htok, hmin⟩
        refine ⟨c :: pre, mid, by rw [hsm]; rfl, htok, ?_⟩
        intro pre' mid' g' u' hsm' hlt htok'
        cases pre' with
        | nil =>
          have hmid' : mid' = c :: rest := by simpa using hsm'.symm
          subst hmid'
          obtain ⟨r', hr'⟩ := PackTok_atStart.mpr htok'
          rw [hps] at hr'
          exact Option.noConfusion hr'
        | cons x xs =>
          have hx : x = c ∧ xs ++ mid' = rest := by simpa using hsm'.symm
          obtain ⟨rfl, hrest⟩ := hx
          exact hmin xs mid' g' u' hrest.symm (by simpa using hlt) htok'
      · rintro ⟨pre, mid, hsm, htok, hmin⟩
        cases pre with
        | nil =>
          exfalso
          have hmid : mid = c :: rest := by simpa using hsm.symm
          subst hmid
          obtain ⟨r', hr'⟩ := PackTok_atStart.mpr htok
          rw [hps] at hr'
          exact Option.noConfusion hr'
        | cons x xs =>
          have hx : x = c ∧ xs ++ mid = rest := by simpa using hsm.symm
          obtain ⟨rfl, hrest⟩ := hx
          refine ⟨xs, mid, hrest.symm, htok, ?_⟩
          intro pre' mid' g' u' hsm' hlt htok'
          exact hmin (x :: pre') mid' g' u' (by rw [hsm']; rfl)
            (by simpa using Nat.succ_lt_succ hlt) htok'

/-! ### Concrete evaluation of the `"Duona 500 g 1.50 €"` line -/

theorem parseDec_150 : parseDec ("1.50".data) = 3 / 2 := by
  have h : parseDec ("1.50".data) = ((1 : ℕ) : ℚ) + ((50 : ℕ) : ℚ) / 10 ^ 2 := rfl
  rw [h]
  norm_num

theorem parseDec_500 : parseDec ("500".data) = 500 := by
  have h : parseDec ("500".data) = ((500 : ℕ) : ℚ) + ((0 : ℕ) : ℚ) / 10 ^ 0 := rfl
  rw [h]
  norm_num

theorem cup_duona : compute_unit_price (3 / 2) 500 "g" = (some 3, some "EUR/kg") := by
  simp only [compute_unit_price]
  rw [show lowerStr "g" = "g" by decide]
  rw [if_pos rfl, if_pos (by norm_num : (0 : ℚ) < 500 / 1000)]
  rw [show (3 / 2 : ℚ) / (500 / 1000) = 3 by norm_num]
  rw [pyRound_exact 3 4 30000 (by norm_num)]

theorem lineCandidate_duona :
    lineCandidate "w" "u" ("Duona 500 g 1.50 €".data) =
      some (oDuona, ("duona 500 g", 3 / 2, some 500, some "g")) := by
  have hfp : findPrice ("Duona 500 g 1.50 €".data) = some ("1.50".data) := rfl
  have hgp : goPack ("Duona 500 g 1.50 €".data) = some ("500".data, "g") := rfl
  have hpr : pyRound (3 / 2) 2 = 3 / 2 := pyRound_exact _ _ 150 (by norm_num)
  unfold lineCandidate
  rw [hfp]
  dsimp only
  rw [show titleOf ("Duona 500 g 1.50 €".data) = "Duona 500 g".data by decide]
  rw [if_neg (by decide)]
  rw [hgp]
  simp only [Option.map_some']
  rw [show commaToDot ("500".data) = "500".data by decide]
  rw [parseDec_150, parseDec_500]
  rw [if_pos ⟨by norm_num, by decide⟩]
  rw [cup_duona, hpr]
  rfl

theorem parse_duona :
    parse_pdf_offers ["Duona 500 g 1.50 €"] "u" "w" = [oDuona] := by
  unfold parse_pdf_offers
  rw [show normLines ["Duona 500 g 1.50 €"] =
    [("Duona 500 g 1.50 €".data)] by decide]
  unfold parseLinesGo
  rw [lineCandidate_duona]
  dsimp only
  rw [if_neg (List.not_mem_nil _)]
  rfl

/-- C4 counterexample — on the input `"500g"` the pack tokenizer of the code
returns `("500", "g")` although the input contains no token of the claimed
shape "number + whitespace + unit" (there is no whitespace character at
all), so the tokenizer as implemented is not the tokenizer the claim
describes. -/
theorem C4_counterexample : ¬ ClaimC4Prop := by
  intro h
  have h1 := (h ("500g".data) ("500".data) "g").mp rfl
  obtain ⟨pre, mid, hsm, htok, -⟩ := h1
  obtain ⟨ds, t, ws, us, r, hm, -, -, -, hwsne, hws, -, -⟩ := htok
  cases ws with
  | nil => exact hwsne rfl
  | cons w ws2 =>
    have hw : isWsChar w = true := hws w (by simp)
    have hmem : w ∈ ("500g".data) := by
      rw [hsm, hm]
      simp
    have hd : ("500g".data) = ['5', '0', '0', 'g'] := rfl
    rw [hd] at hmem
    simp only [List.mem_cons, List.not_mem_nil, or_false] at hmem
    rcases hmem with rfl | rfl | rfl | rfl <;> exact absurd hw (by decide)

/-- C4 (amended) — the pack tokenizer returns exactly the leftmost token of
the form "number (optional `.`/`,` decimal part), optional whitespace, unit
in {kg, g, l, ml, vnt} case-insensitively, ending at a word boundary"; an
input without such a token yields `none`, and the extractor reads the pack
fields of an offer from this tokenizer applied to the price-bearing line
alone (the PDF context window). -/
theorem C4_amended_pack_tokenizer (s g : List Char) (u : String) :
    (goPack s = some (g, u) ↔ FirstPack s g u) ∧
    ((∀ pre mid g' u', s = pre ++ mid → ¬ PackTok mid g' u') →
      goPack s = none) ∧
    (∀ (wk url : String) (ln : List Char) (o : Offer) (k : DKey),
      lineCandidate wk url ln = some (o, k) →
      o.pack_value = (goPack ln).map (fun pr => parseDec (commaToDot pr.1)) ∧
      o.pack_unit = (goPack ln).map (fun pr => pr.2)) := by
  refine ⟨goPack_iff s g u, ?_, ?_⟩
  · intro hno
    cases hgp : goPack s with
    | none => rfl
    | some pr =>
      obtain ⟨g0, u0⟩ := pr
      obtain ⟨pre, mid, hsm, htok, -⟩ := (goPack_iff s g0 u0).mp hgp
      exact absurd htok (hno pre mid g0 u0 hsm)
  · intro wk url ln o k h
    unfold lineCandidate at h
    split at h
    · exact Option.noConfusion h
    · dsimp only at h
      split at h
      · exact Option.noConfusion h
      · simp only [Option.some.injEq, Prod.mk.injEq] at h
        obtain ⟨ho, -⟩ := h
        subst ho
        exact ⟨rfl, rfl⟩

/-- C4 witness: the pack of `"Duona 500 g 1.50 €"` is the leftmost token
`("500", "g")`, and the offer built from that line carries exactly the
tokenizer's pack fields. -/
theorem C4_witness :
    FirstPack ("Duona 500 g 1.50 €".data) ("500".data) "g" ∧
    oDuona.pack_value =
      (goPack ("Duona 500 g 1.50 €".data)).map
        (fun pr => parseDec (commaToDot pr.1)) ∧
    oDuona.pack_unit =
      (goPack ("Duona 500 g 1.50 €".data)).map (fun pr => pr.2) := by
  refine ⟨(C4_amended_pack_tokenizer ("Duona 500 g 1.50 €".data)
    ("500".data) "g").1.mp rfl, ?_⟩
  exact (C4_amended_pack_tokenizer [] [] "").2.2 "w" "u"
    ("Duona 500 g 1.50 €".data) oDuona
    ("duona 500 g", 3 / 2, some 500, some "g") lineCandidate_duona


/-- C5 — for a PDF price line the title is the line with the price tokens
stripped, the edge separators (`-`, `–`, `•`, `|`) and whitespace trimmed
and repeated interior whitespace collapsed (`titleOf`); a candidate whose
resulting title is shorter than 3 characters is rejected, and the single
line `"Sūris Edam 3.49 €"` yields the title `"Sūris Edam"`. -/
theorem C5_title_derivation (wk url : String) (ln : List Char) :
    ((titleOf ln).length < 3 → lineCandidate wk url ln = none) ∧
    (∀ o k, lineCandidate wk url ln = some (o, k) →
      o.title = String.mk (titleOf ln)) ∧
    (parse_pdf_offers ["Sūris Edam 3.49 €"] "u" "w").map Offer.title =
      ["Sūris Edam"] := by
  refine ⟨?_, ?_, ?_⟩
  · intro hlen
    unfold lineCandidate
    split
    · rfl
    · dsimp only
      rw [if_pos hlen]
  · intro o k h
    unfold lineCandidate at h
    split at h
    · exact Option.noConfusion h
    · dsimp only at h
      split at h
      · exact Option.noConfusion h
      · simp only [Option.some.injEq, Prod.mk.injEq] at h
        obtain ⟨ho, -⟩ := h
        subst ho
        rfl
  · decide

/-- C5 witness: a line whose stripped title is too short is rejected, and
the worked example of the spec goes through the theorem. -/
theorem C5_witness :
    lineCandidate "w" "u" ("ab 1.99 €".data) = none ∧
    (parse_pdf_offers ["Sūris Edam 3.49 €"] "u" "w").map Offer.title =
      ["Sūris Edam"] :=
  ⟨(C5_title_derivation "w" "u" ("ab 1.99 €".data)).1 (by decide),
    (C5_title_derivation "w" "u" []).2.2⟩

/-! ### The in-batch deduplicator -/

theorem parseLinesGo_eq (wk url : String) (ls : List (List Char)) :
    ∀ seen, parseLinesGo wk url ls seen =
      (firstOccP (ls.filterMap (lineCandidate wk url)) seen).map Prod.fst := by
  induction ls with
  | nil =>
    intro seen
    rfl
  | cons ln rest ih =>
    intro seen
    unfold parseLinesGo
    cases hlc : lineCandidate wk url ln with
    | none =>
      simp only [List.filterMap_cons, hlc]
      exact ih seen
    | some p =>
      obtain ⟨o, k⟩ := p
      simp only [List.filterMap_cons, hlc]
      unfold firstOccP
      dsimp only
      by_cases hk : k ∈ seen
      · rw [if_pos hk, if_pos hk]
        exact ih seen
      · rw [if_neg hk, if_neg hk]
        simp only [List.map_cons]
        rw [ih (k :: seen)]

theorem firstOccP_mem (ps : List (Offer × DKey)) : ∀ (seen : List DKey)
    (p : Offer × DKey),
    p ∈ firstOccP ps seen ↔
      p.2 ∉ seen ∧ ∃ pre post, ps = pre ++ p :: post ∧ ∀ q ∈ pre, q.2 ≠ p.2 := by
  induction ps with
  | nil =>
    intro seen p
    constructor
    · intro h
      exact absurd h (List.not_mem_nil p)
    · rintro ⟨-, pre, post, hsm, -⟩
      cases pre <;> simp at hsm
  | cons q rest ih =>
    intro seen p
    unfold firstOccP
    by_cases hq : q.2 ∈ seen
    · rw [if_pos hq, ih seen p]
      constructor
      · rintro ⟨hnot, pre, post, hsm, hpre⟩
        refine ⟨hnot, q :: pre, post, by rw [hsm]; rfl, ?_⟩
        intro x hx
        rcases List.mem_cons.mp hx with rfl | hx2
        · intro he
          exact hnot (he ▸ hq)
        · exact hpre x hx2
      · rintro ⟨hnot, pre, post, hsm, hpre⟩
        cases pre with
        | nil =>
          injection hsm with h1 h2
          exfalso
          exact hnot (h1 ▸ hq)
        | cons q' pre' =>
          injection hsm with h1 h2
          subst h1
          exact ⟨hnot, pre', post, h2, fun x hx => hpre x (by simp [hx])⟩
    · rw [if_neg hq]
      constructor
      · intro h
        rcases List.mem_cons.mp h with rfl | h2
        · exact ⟨hq, [], rest, rfl, by simp⟩
        · obtain ⟨hnot, pre, post, hsm, hpre⟩ := (ih (q.2 :: seen) p).mp h2
          refine ⟨fun hs => hnot (by simp [hs]), q :: pre, post,
            by rw [hsm]; rfl, ?_⟩
          intro x hx
          rcases List.mem_cons.mp hx with rfl | hx2
          · intro he
            exact hnot (by simp [he])
          · exact hpre x hx2
      · rintro ⟨hnot, pre, post, hsm, hpre⟩
        cases pre with
        | nil =>
          injection hsm with h1 h2
          subst h1
          exact List.mem_cons_self q _
        | cons q' pre' =>
          injection hsm with h1 h2
          subst h1
          apply List.mem_cons_of_mem
          apply (ih (q.2 :: seen) p).mpr
          refine ⟨?_, pre', post, h2, fun x hx => hpre x (by simp [hx])⟩
          intro hs
          rcases List.mem_cons.mp hs with he | hs2
          · exact hpre q (by simp) he.symm
          · exact hnot hs2

theorem firstOccP_keys_nodup (ps : List (Offer × DKey)) : ∀ seen : List DKey,
    (firstOccP ps seen).Pairwise (fun a b => a.2 ≠ b.2) := by
  induction ps with
  | nil =>
    intro seen
    exact List.Pairwise.nil
  | cons q rest ih =>
    intro seen
    unfold firstOccP
    by_cases hq : q.2 ∈ seen
    · rw [if_pos hq]
      exact ih seen
    · rw [if_neg hq]
      refine List.Pairwise.cons ?_ (ih (q.2 :: seen))
      intro b hb
      have hbn := ((firstOccP_mem rest (q.2 :: seen) b).mp hb).1
      intro he
      exact hbn (by simp [← he])

theorem exists_first_with_key (ps : List (Offer × DKey)) (k : DKey)
    (hk : ∃ o, (o, k) ∈ ps) :
    ∃ pre o post, ps = pre ++ (o, k) :: post ∧ ∀ q ∈ pre, q.2 ≠ k := by
  induction ps with
  | nil =>
    obtain ⟨o, ho⟩ := hk
    exact absurd ho (List.not_mem_nil _)
  | cons q rest ih =>
    by_cases hq : q.2 = k
    · refine ⟨[], q.1, rest, ?_, by simp⟩
      rw [← hq]
      rfl
    · obtain ⟨o, ho⟩ := hk
      rcases List.mem_cons.mp ho with he | ho2
      · exact absurd (by rw [← he]) hq
      · obtain ⟨pre, o2, post, hsm, hpre⟩ := ih ⟨o, ho2⟩
        refine ⟨q :: pre, o2, post, by rw [hsm]; rfl, ?_⟩
        intro x hx
        rcases List.mem_cons.mp hx with rfl | hx2
        · exact hq
        · exact hpre x hx2

theorem first_decomp_unique (k : DKey) :
    ∀ (a : List (Offer × DKey)) (x : Offer × DKey) (b c : List (Offer × DKey))
      (y : Offer × DKey) (d : List (Offer × DKey)),
      a ++ x :: b = c ++ y :: d → x.2 = k → y.2 = k →
      (∀ q ∈ a, q.2 ≠ k) → (∀ q ∈ c, q.2 ≠ k) → x = y := by
  intro a
  induction a with
  | nil =>
    intro x b c y d heq hx hy ha hc
    cases c with
    | nil =>
      simp only [List.nil_append] at heq
      exact (List.cons.inj heq).1
    | cons c0 c' =>
      injection heq with h1 h2
      subst h1
      exact absurd hx (hc x (by simp))
  | cons a0 a' ih =>
    intro x b c y d heq hx hy ha hc
    cases c with
    | nil =>
      injection heq with h1 h2
      exact absurd (by rw [h1]; exact hy) (ha a0 (by simp))
    | cons c0 c' =>
      injection heq with h1 h2
      exact ih x b c' y d h2 hx hy (fun q hq => ha q (by simp [hq]))
        (fun q hq => hc q (by simp [hq]))

/-- C6 — within one extraction call the emitted offers are exactly the
first projections of the first-occurrence candidates: a candidate is kept
iff no earlier candidate of the same call carries the same dedup key, the
kept candidates have pairwise distinct keys, and every key that occurs
among the candidates is represented by exactly one kept candidate (the
first encountered). -/
theorem C6_dedup (pages : List String) (url wk : String) :
    parse_pdf_offers pages url wk =
      (firstOccP (linePairs wk url pages) []).map Prod.fst ∧
    (firstOccP (linePairs wk url pages) []).Pairwise (fun a b => a.2 ≠ b.2) ∧
    (∀ p, p ∈ firstOccP (linePairs wk url pages) [] ↔
      ∃ pre post, linePairs wk url pages = pre ++ p :: post ∧
        ∀ q ∈ pre, q.2 ≠ p.2) ∧
    (∀ (pre : List (Offer × DKey)) (o : Offer) (k : DKey) post,
      linePairs wk url pages = pre ++ (o, k) :: post →
      ∃! p : Offer × DKey,
        p ∈ firstOccP (linePairs wk url pages) [] ∧ p.2 = k) := by
  refine ⟨parseLinesGo_eq wk url (normLines pages) [],
    firstOccP_keys_nodup _ [], ?_, ?_⟩
  · intro p
    rw [firstOccP_mem]
    simp
  · intro pre o k post hsm
    obtain ⟨pre2, o2, post2, hsm2, hpre2⟩ :=
      exists_first_with_key (linePairs wk url pages) k ⟨o, by rw [hsm]; simp⟩
    refine ⟨(o2, k), ⟨?_, rfl⟩, ?_⟩
    · rw [firstOccP_mem]
      exact ⟨by simp, pre2, post2, hsm2, hpre2⟩
    · rintro p2 ⟨hp2mem, hp2k⟩
      obtain ⟨-, pre3, post3, hsm3, hpre3⟩ :=
        (firstOccP_mem (linePairs wk url pages) [] p2).mp hp2mem
      exact first_decomp_unique k pre3 p2 post3 pre2 (o2, k) post2
        (hsm3.symm.trans hsm2) hp2k rfl
        (fun q hq => hp2k ▸ hpre3 q hq) hpre2

/-- C6 witness: on a one-candidate extraction the deduplicator keeps
exactly one candidate for the key of the `"Duona 500 g 1.50 €"` line. -/
theorem C6_witness :
    ∃! p : Offer × DKey,
      p ∈ firstOccP (linePairs "w" "u" ["Duona 500 g 1.50 €"]) [] ∧
      p.2 = ("duona 500 g", 3 / 2, some 500, some "g") := by
  have hlp : linePairs "w" "u" ["Duona 500 g 1.50 €"] =
      [(oDuona, ("duona 500 g", 3 / 2, some 500, some "g"))] := by
    unfold linePairs
    rw [show normLines ["Duona 500 g 1.50 €"] =
      [("Duona 500 g 1.50 €".data)] by decide]
    rw [List.filterMap_cons, lineCandidate_duona]
    rfl
  exact (C6_dedup ["Duona 500 g 1.50 €"] "u" "w").2.2.2 [] oDuona
    ("duona 500 g", 3 / 2, some 500, some "g") [] hlp

/-! ### Offer invariants -/

theorem parseDec_nonneg (l : List Char) : 0 ≤ parseDec l := by
  unfold parseDec
  positivity

theorem cup_some_of (p : ℚ) {pv : ℚ} (hpv : 0 < pv) {u : String}
    (hu : u ∈ (["kg", "g", "l", "ml", "vnt"] : List String)) :
    ∃ q lab, compute_unit_price p pv u = (some q, some lab) := by
  have hdiv : 0 < pv / 1000 := div_pos hpv (by norm_num)
  simp only [List.mem_cons, List.not_mem_nil, or_false] at hu
  rcases hu with rfl | rfl | rfl | rfl | rfl <;>
    simp [compute_unit_price, show lowerStr "g" = "g" by decide,
      show lowerStr "kg" = "kg" by decide, show lowerStr "ml" = "ml" by decide,
      show lowerStr "l" = "l" by decide, show lowerStr "vnt" = "vnt" by decide,
      hpv, hdiv]

/-- C10 — every emitted offer has `unit_price` and `unit_price_unit` both
null or both non-null; they are non-null only when `pack_value` is present
and strictly positive and `pack_unit` is one of the five recognized units;
and every emitted offer carries `store = "lidl"`, `currency = "EUR"`,
`source_type = "pdf"` and the `week_id`/`source_url` of the call. -/
theorem C10_offer_invariants (pages : List String) (url wk : String) :
    ∀ o ∈ parse_pdf_offers pages url wk,
      (o.unit_price = none ↔ o.unit_price_unit = none) ∧
      (∀ q : ℚ, o.unit_price = some q →
        ∃ pv u, o.pack_value = some pv ∧ 0 < pv ∧ o.pack_unit = some u ∧
          u ∈ (["g", "kg", "ml", "l", "vnt"] : List String)) ∧
      o.store = "lidl" ∧ o.currency = "EUR" ∧ o.source_type = "pdf" ∧
      o.week_id = wk ∧ o.source_url = url := by
  intro o ho
  unfold parse_pdf_offers at ho
  rw [parseLinesGo_eq wk url (normLines pages) []] at ho
  obtain ⟨p, hp, rfl⟩ := List.mem_map.mp ho
  obtain ⟨oc, k⟩ := p
  dsimp only
  obtain ⟨-, pre, post, hsm, -⟩ :=
    (firstOccP_mem (linePairs wk url pages) [] (oc, k)).mp hp
  have hpairs : (oc, k) ∈ linePairs wk url pages := by
    rw [hsm]
    simp
  obtain ⟨ln, -, hlc⟩ := List.mem_filterMap.mp hpairs
  unfold lineCandidate at hlc
  split at hlc
  · exact Option.noConfusion hlc
  · rename_i pstr hfp
    dsimp only at hlc
    split at hlc
    · exact Option.noConfusion hlc
    · cases hgp : goPack ln with
      | none =>
        rw [hgp] at hlc
        simp only [Option.map_none'] at hlc
        simp only [Option.some.injEq, Prod.mk.injEq] at hlc
        obtain ⟨ho2, -⟩ := hlc
        subst ho2
        refine ⟨by simp, ?_, rfl, rfl, rfl, rfl, rfl⟩
        intro q hq
        exact Option.noConfusion hq
      | some pr =>
        obtain ⟨gs, u⟩ := pr
        rw [hgp] at hlc
        simp only [Option.map_some'] at hlc
        have hu5 : u ∈ (["kg", "g", "l", "ml", "vnt"] : List String) := by
          obtain ⟨pre2, mid2, hsm2, htok2, -⟩ := (goPack_iff ln gs u).mp hgp
          obtain ⟨ds, t, ws, us, r, -, -, -, -, -, hut, -, -⟩ := htok2
          exact hut.2
        have hpv0 : 0 ≤ parseDec (commaToDot gs) := parseDec_nonneg _
        by_cases hcond : parseDec (commaToDot gs) ≠ 0 ∧ u ≠ ""
        · rw [if_pos hcond] at hlc
          have hpvpos : 0 < parseDec (commaToDot gs) :=
            lt_of_le_of_ne hpv0 (Ne.symm hcond.1)
          obtain ⟨q0, lab0, hcup⟩ := cup_some_of (parseDec pstr) hpvpos hu5
          rw [hcup] at hlc
          simp only [Option.some.injEq, Prod.mk.injEq] at hlc
          obtain ⟨ho2, -⟩ := hlc
          subst ho2
          refine ⟨by simp, ?_, rfl, rfl, rfl, rfl, rfl⟩
          intro q hq
          exact ⟨parseDec (commaToDot gs), u, rfl, hpvpos, rfl, by
            simpa [or_comm, or_assoc, or_left_comm] using hu5⟩
        · rw [if_neg hcond] at hlc
          simp only [Option.some.injEq, Prod.mk.injEq] at hlc
          obtain ⟨ho2, -⟩ := hlc
          subst ho2
          refine ⟨by simp, ?_, rfl, rfl, rfl, rfl, rfl⟩
          intro q hq
          exact Option.noConfusion hq

/-- C10 witness: the offer of the `"Duona 500 g 1.50 €"` line satisfies all
field invariants. -/
theorem C10_witness :
    (oDuona.unit_price = none ↔ oDuona.unit_price_unit = none) ∧
    (∀ q : ℚ, oDuona.unit_price = some q →
      ∃ pv u, oDuona.pack_value = some pv ∧ 0 < pv ∧
        oDuona.pack_unit = some u ∧
        u ∈ (["g", "kg", "ml", "l", "vnt"] : List String)) ∧
    oDuona.store = "lidl" ∧ oDuona.currency = "EUR" ∧
    oDuona.source_type = "pdf" ∧ oDuona.week_id = "w" ∧
    oDuona.source_url = "u" :=
  C10_offer_invariants ["Duona 500 g 1.50 €"] "u" "w" oDuona
    (by rw [parse_duona]; simp)
